import Mathlib

/-!
Verification development for the slide-deck JSON codec repository.

The geometry subsystem (affine transform compose / decompose and the
matrix builder) is embedded over the real numbers; JavaScript numbers are
modelled as exact reals and `Math.round` as the floor of `x + 1/2`.
The text-structure and color subsystems are embedded over rationals,
strings and naturals so that concrete runs evaluate inside the kernel.
Optional (possibly `undefined`) JavaScript fields are modelled as `Option`.
-/

open Real

namespace JsonPrez

/-- JavaScript `Math.round`: round half toward positive infinity. -/
noncomputable def jsRound (x : ℝ) : ℤ := ⌊x + 1/2⌋

/-- `v || d` for a JavaScript number known to be present: `0` is falsy. -/
noncomputable def jsOrR (v d : ℝ) : ℝ := if v = 0 then d else v

/-- A Google Slides API affine transform object.  Every field can be
omitted from the wire format ( `undefined` ), hence `Option`.  The extra
`rotation` field is carried by the objects `composeTransforms` builds. -/
structure Transform where
  scaleX : Option ℝ
  scaleY : Option ℝ
  shearX : Option ℝ
  shearY : Option ℝ
  translateX : Option ℝ
  translateY : Option ℝ
  rotation : Option ℝ

/-- `composeTransforms(parent, child)` from the extractor, on two non-null
transforms: 2x2 matrix product of the linear parts, parent translation
plus parent linear part applied to child translation, rotations added.
Omitted scale fields default to 1 here, omitted shear / translate to 0,
exactly as in the source. -/
def composeTransforms (parent child : Transform) : Transform :=
  let pScaleX := parent.scaleX.getD 1
  let pScaleY := parent.scaleY.getD 1
  let pShearX := parent.shearX.getD 0
  let pShearY := parent.shearY.getD 0
  let pTranslateX := parent.translateX.getD 0
  let pTranslateY := parent.translateY.getD 0
  let cScaleX := child.scaleX.getD 1
  let cScaleY := child.scaleY.getD 1
  let cShearX := child.shearX.getD 0
  let cShearY := child.shearY.getD 0
  let cTranslateX := child.translateX.getD 0
  let cTranslateY := child.translateY.getD 0
  { scaleX := some (pScaleX * cScaleX + pShearX * cShearY)
    scaleY := some (pShearY * cShearX + pScaleY * cScaleY)
    shearX := some (pScaleX * cShearX + pShearX * cScaleY)
    shearY := some (pShearY * cScaleX + pScaleY * cShearY)
    translateX := some (pTranslateX + pScaleX * cTranslateX + pShearX * cTranslateY)
    translateY := some (pTranslateY + pShearY * cTranslateX + pScaleY * cTranslateY)
    rotation := some (parent.rotation.getD 0 + child.rotation.getD 0) }

/-- The identity transform literal: scale 1, shear 0, translate 0. -/
def identityTransform : Transform :=
  { scaleX := some 1, scaleY := some 1, shearX := some 0, shearY := some 0,
    translateX := some 0, translateY := some 0, rotation := none }

/-- `extractElementAdvanced`: true when any of the four linear matrix
fields is present on the (composed) transform object. -/
def hasAnyTransformValue (t : Transform) : Bool :=
  t.scaleX.isSome || t.scaleY.isSome || t.shearX.isSome || t.shearY.isSome

/-- The scale default picked by `extractElementAdvanced`: 0 when any
linear field is present, 1 for a completely empty linear part. -/
def defaultScale (t : Transform) : ℝ :=
  if hasAnyTransformValue t then 0 else 1

/-- `scaleX` as resolved by the decomposition. -/
def resolvedScaleX (t : Transform) : ℝ := t.scaleX.getD (defaultScale t)

/-- `scaleY` as resolved by the decomposition. -/
def resolvedScaleY (t : Transform) : ℝ := t.scaleY.getD (defaultScale t)

/-- `shearX = transform.shearX || 0`. -/
def resolvedShearX (t : Transform) : ℝ := t.shearX.getD 0

/-- `shearY = transform.shearY || 0`. -/
def resolvedShearY (t : Transform) : ℝ := t.shearY.getD 0

/-- `translateX = transform.translateX || 0`. -/
def resolvedTranslateX (t : Transform) : ℝ := t.translateX.getD 0

/-- `translateY = transform.translateY || 0`. -/
def resolvedTranslateY (t : Transform) : ℝ := t.translateY.getD 0

/-- Width scale factor: `Math.sqrt(scaleX*scaleX + shearY*shearY)`. -/
noncomputable def scaleW (t : Transform) : ℝ :=
  Real.sqrt (resolvedScaleX t * resolvedScaleX t + resolvedShearY t * resolvedShearY t)

/-- Height scale factor: `Math.sqrt(shearX*shearX + scaleY*scaleY)`. -/
noncomputable def scaleH (t : Transform) : ℝ :=
  Real.sqrt (resolvedShearX t * resolvedShearX t + resolvedScaleY t * resolvedScaleY t)

/-- JavaScript `Math.atan2(y, x)` on real inputs. -/
noncomputable def atan2 (y x : ℝ) : ℝ :=
  if 0 < x then Real.arctan (y / x)
  else if x < 0 then
    (if 0 ≤ y then Real.arctan (y / x) + π else Real.arctan (y / x) - π)
  else
    (if 0 < y then π / 2 else if y < 0 then -(π / 2) else 0)

/-- `rotationRad = Math.atan2(shearY, scaleX)` of the decomposition. -/
noncomputable def rotationRad (t : Transform) : ℝ :=
  atan2 (resolvedShearY t) (resolvedScaleX t)

/-- Rotation in degrees before normalization. -/
noncomputable def rotationDegRaw (t : Transform) : ℝ :=
  rotationRad t * (180 / π)

/-- Rotation normalized into the 0..360 range: `if (deg < 0) deg += 360`. -/
noncomputable def rotationDegNorm (t : Transform) : ℝ :=
  if rotationDegRaw t < 0 then rotationDegRaw t + 360 else rotationDegRaw t

/-- The reported rotation: normalized degrees rounded to two decimals,
`Math.round(rotationDeg * 100) / 100`. -/
noncomputable def rotationDeg (t : Transform) : ℝ :=
  (jsRound (rotationDegNorm t * 100) : ℝ) / 100

/-- `det = scaleX * scaleY - shearX * shearY` of the decomposition. -/
noncomputable def detT (t : Transform) : ℝ :=
  resolvedScaleX t * resolvedScaleY t - resolvedShearX t * resolvedShearY t

/-- Decomposed actual width: `baseWidth * scaleW`. -/
noncomputable def actualWidth (t : Transform) (baseWidth : ℝ) : ℝ := baseWidth * scaleW t

/-- Decomposed actual height: `baseHeight * scaleH`. -/
noncomputable def actualHeight (t : Transform) (baseHeight : ℝ) : ℝ := baseHeight * scaleH t

/-- Matrix translation converted to the top-left corner:
`topLeftX = translateX - halfW * (1 - cos) - halfH * sin`. -/
noncomputable def topLeftX (t : Transform) (baseWidth baseHeight : ℝ) : ℝ :=
  resolvedTranslateX t - actualWidth t baseWidth / 2 * (1 - Real.cos (rotationRad t))
    - actualHeight t baseHeight / 2 * Real.sin (rotationRad t)

/-- `topLeftY = translateY - halfH * (1 - cos) + halfW * sin`. -/
noncomputable def topLeftY (t : Transform) (baseWidth baseHeight : ℝ) : ℝ :=
  resolvedTranslateY t - actualHeight t baseHeight / 2 * (1 - Real.cos (rotationRad t))
    + actualWidth t baseWidth / 2 * Real.sin (rotationRad t)

/-- `emuToPt(emu) = Math.round(emu / 12700)` on the extraction side. -/
noncomputable def emuToPt (emu : ℝ) : ℝ := (jsRound (emu / 12700) : ℝ)

/-- Extracted `x` field of an element. -/
noncomputable def geomX (t : Transform) (baseWidth baseHeight : ℝ) : ℝ :=
  emuToPt (topLeftX t baseWidth baseHeight)

/-- Extracted `y` field of an element. -/
noncomputable def geomY (t : Transform) (baseWidth baseHeight : ℝ) : ℝ :=
  emuToPt (topLeftY t baseWidth baseHeight)

/-- Extracted `w` field of an element. -/
noncomputable def geomW (t : Transform) (baseWidth : ℝ) : ℝ :=
  emuToPt (actualWidth t baseWidth)

/-- Extracted `h` field of an element. -/
noncomputable def geomH (t : Transform) (baseHeight : ℝ) : ℝ :=
  emuToPt (actualHeight t baseHeight)

/-- `buildTransform(x, y, rotation, w, h, flipH, flipV)` from the
generation utilities, with the repository configuration `SCALE = 1`
(canvas and Slides dimensions are both 720 x 405 points).  Width and
height fall back to 100 when zero, mirroring `(w || 100)`.  The result
carries point-unit translation. -/
noncomputable def buildTransform (x y rotation w h : ℝ) (flipH flipV : Bool) : Transform :=
  let px := x
  let py := y
  let pw := jsOrR w 100
  let ph := jsOrR h 100
  let radians := rotation * π / 180
  let c := Real.cos radians
  let s := Real.sin radians
  let sx : ℝ := if flipH then -1 else 1
  let sy : ℝ := if flipV then -1 else 1
  { scaleX := some (sx * c)
    scaleY := some (sy * c)
    shearX := some (-sy * s)
    shearY := some (sx * s)
    translateX := some (px + pw / 2 * (1 - c) + ph / 2 * s)
    translateY := some (py + ph / 2 * (1 - c) - pw / 2 * s)
    rotation := none }

/-- Unit adapter between the two pipelines: the builder emits transforms
with point-unit translation ( `unit: PT` ), while the Slides tree read by
the extractor stores translation in EMU (12700 EMU per point).  The
linear 2x2 part is unit-free. -/
noncomputable def emuOfPt (t : Transform) : Transform :=
  { t with translateX := t.translateX.map (· * 12700),
           translateY := t.translateY.map (· * 12700) }

/-! ## Text structure codec and color resolver: data model

JavaScript strings are modelled as their sequence of code units, a
`List Char`; `s.length` is list length, `s.substring(0, s.length - 1)` is
`dropLast`, concatenation is list append. -/

/-- The model of a JavaScript string. -/
abbrev Str := List Char

/-- `s.endsWith('\n')` on the string model. -/
def strEndsWithNl (s : Str) : Bool :=
  match s.getLast? with
  | some c => c = '\n'
  | none => false

/-- JavaScript truthiness of a possibly missing string. -/
def truthyS (o : Option String) : Bool :=
  match o with
  | none => false
  | some s => s ≠ ""

/-- `a || b` on possibly missing strings. -/
def jsOrS (a b : Option String) : Option String := if truthyS a then a else b

/-- `a || d` with a definite string default. -/
def jsOrStr (a : Option String) (d : String) : String :=
  if truthyS a then a.getD d else d

/-- `Math.round` on the rational model of a JavaScript number. -/
def jsRoundQ (q : ℚ) : ℤ := ⌊q + 1/2⌋

/-- A dimension object `{magnitude, unit}` coming from the API. -/
structure DimIn where
  magnitude : Option ℚ
  unit : Option String
deriving DecidableEq

/-- A `bullet` payload on a paragraph marker. -/
structure BulletIn where
  listId : Option String
  nestingLevel : Option ℚ
  glyph : Option String
deriving DecidableEq

/-- The `style` payload of a paragraph marker. -/
structure MarkerStyleIn where
  alignment : Option String
  direction : Option String
  spacingMode : Option String
  spaceAbove : Option DimIn
  spaceBelow : Option DimIn
  indentStart : Option DimIn
  indentFirstLine : Option DimIn
  lineSpacing : Option ℚ
deriving DecidableEq

/-- A `paragraphMarker` element of the flat text stream. -/
structure MarkerIn where
  style : Option MarkerStyleIn
  bullet : Option BulletIn
deriving DecidableEq

/-- An `rgbColor` payload. -/
structure RgbIn where
  red : Option ℚ
  green : Option ℚ
  blue : Option ℚ
deriving DecidableEq

/-- `foregroundColor.opaqueColor`: either a literal rgb or a theme token. -/
inductive OpaqueColorIn where
  | rgbColor (c : RgbIn)
  | themeColor (k : String)
deriving DecidableEq

/-- The `style` payload of a text run. -/
structure RunStyleIn where
  foregroundColor : Option OpaqueColorIn
  fontSize : Option ℚ
  fontFamily : Option String
  bold : Option Bool
  italic : Option Bool
  underline : Option Bool
  strikethrough : Option Bool
  smallCaps : Option Bool
  linkUrl : Option String
deriving DecidableEq

/-- A `textRun` element of the flat text stream. -/
structure RunIn where
  content : Option Str
  style : Option RunStyleIn
deriving DecidableEq

/-- One element of the flat marker / run stream consumed by
`extractTextAdvanced`.  Elements carrying neither payload are skipped by
the source loop and are not modelled. -/
inductive TElem where
  | marker (m : MarkerIn)
  | run (r : RunIn)

/-- Paragraph style attached to each decoded run by
`buildParagraphData` (or the default `{ align: 'left' }`). -/
structure PStyleOut where
  align : String
  direction : Option String
  spacingMode : Option String
  spaceAbove : Option ℚ
  spaceBelow : Option ℚ
  lineSpacing : Option ℚ
  indentStart : Option ℚ
  indentFirstLine : Option ℚ

/-- Bullet data attached to each decoded run of a bulleted paragraph. -/
structure BulletOut where
  listId : Option String
  nestingLevel : ℚ
  glyph : Option String

/-- A decoded text run as produced by `extractTextAdvanced` and consumed
by `buildTextContentRequests`.  Payload-only fields that never influence
which requests are emitted (baselineOffset and the object identifiers)
are not modelled. -/
structure RunOut where
  text : Str
  color : String
  fontSize : Option ℚ
  fontFamily : Option String
  bold : Option Bool
  italic : Option Bool
  underline : Bool
  strikethrough : Bool
  smallCaps : Bool
  linkUrl : Option String
  paragraphStyle : Option PStyleOut
  bullet : Option BulletOut

/-- Result of `extractTextAdvanced`: the accumulated plain text and the
flat list of styled runs. -/
structure TextData where
  plainText : Str
  runs : List RunOut

/-! ## Color resolver -/

/-- The hardcoded default palette `DEFAULT_THEME_COLORS`. -/
def DEFAULT_THEME_COLORS : String → Option String := fun k =>
  match k with
  | "DARK1" => some "#000000"
  | "DARK2" => some "#595959"
  | "LIGHT1" => some "#ffffff"
  | "LIGHT2" => some "#eeeeee"
  | "ACCENT1" => some "#4285f4"
  | "ACCENT2" => some "#34a853"
  | "ACCENT3" => some "#fbbc05"
  | "ACCENT4" => some "#ea4335"
  | "ACCENT5" => some "#46bdc6"
  | "ACCENT6" => some "#7baaf7"
  | "HYPERLINK" => some "#1a73e8"
  | "FOLLOWED_HYPERLINK" => some "#681da8"
  | _ => none

/-- A theme color map (JavaScript object): token to hex, missing keys
give `undefined`. -/
def ColorMap := String → Option String

/-- `getResolvedThemeColorMap(slideIndex)`: the per-slide resolved map,
or an empty map when the cache has no entry for that slide. -/
def getResolvedThemeColorMap (slideMaps : ℕ → Option ColorMap) (slideIndex : ℕ) : ColorMap :=
  (slideMaps slideIndex).getD (fun _ => none)

/-- The theme token lookup chain used for run colors in
`extractTextAdvanced`:
`slideThemeColors[k] || _themeColorMap[k] || _activeThemeColors[k] || DEFAULT_THEME_COLORS[k] || '#000000'`. -/
def resolveRunThemeColor (slideMap staticMap activeMap : ColorMap) (k : String) : String :=
  jsOrStr (jsOrS (jsOrS (jsOrS (slideMap k) (staticMap k)) (activeMap k))
    (DEFAULT_THEME_COLORS k)) "#000000"

/-- `resolveThemeColor(color)`: pass hex literals through, resolve
`theme:` references through the static, active and default maps. -/
def resolveThemeColor (staticMap activeMap : ColorMap) (color : Option String) : String :=
  match color with
  | none => "#000000"
  | some c =>
    if c = "" then "#000000"
    else if c.startsWith "#" then c
    else if c.startsWith "theme:" then
      let k := c.drop 6
      jsOrStr (jsOrS (jsOrS (staticMap k) (activeMap k)) (DEFAULT_THEME_COLORS k)) "#000000"
    else c

/-- Two lowercase hex digits of a byte value, `x.toString(16).padStart(2, '0')`. -/
def toHexTwo (n : ℤ) : String :=
  let ds := Nat.toDigits 16 n.toNat
  let s := String.mk ds
  if s.length < 2 then "0" ++ s else s

/-- `rgbToHexAdvanced`: scale each channel by 255, round, format as hex. -/
def rgbToHexAdvanced (rgb : RgbIn) : String :=
  "#" ++ toHexTwo (jsRoundQ ((rgb.red.getD 0) * 255))
      ++ toHexTwo (jsRoundQ ((rgb.green.getD 0) * 255))
      ++ toHexTwo (jsRoundQ ((rgb.blue.getD 0) * 255))

/-! ## Text decode: `extractTextAdvanced` -/

/-- `mapAlignmentAdvanced`: API alignment enum to canonical token. -/
def mapAlignmentAdvanced (alignment : Option String) : String :=
  match alignment with
  | some "START" => "left"
  | some "CENTER" => "center"
  | some "END" => "right"
  | some "JUSTIFIED" => "justify"
  | _ => "left"

/-- The `getPt` helper: missing magnitude gives `undefined`; point
magnitudes pass through, others are divided by 12700 EMU per point. -/
def getPt (prop : Option DimIn) : Option ℚ :=
  match prop with
  | none => none
  | some d =>
    match d.magnitude with
    | none => none
    | some m => some (if d.unit = some "PT" then m else m / 12700)

/-- `lineSpacing || 100` where the field may be absent. -/
def lineSpacingOr100 (o : Option ℚ) : ℚ :=
  match o with
  | none => 100
  | some q => if q = 0 then 100 else q

/-- `buildParagraphData(marker)`: paragraph style and bullet data. -/
def buildParagraphData (m : MarkerIn) : PStyleOut × Option BulletOut :=
  let ps := m.style
  let pStyle : PStyleOut :=
    { align := mapAlignmentAdvanced (ps.bind (·.alignment))
      direction := ps.bind (·.direction)
      spacingMode := ps.bind (·.spacingMode)
      spaceAbove := getPt (ps.bind (·.spaceAbove))
      spaceBelow := getPt (ps.bind (·.spaceBelow))
      lineSpacing := some (lineSpacingOr100 (ps.bind (·.lineSpacing)))
      indentStart := getPt (ps.bind (·.indentStart))
      indentFirstLine := getPt (ps.bind (·.indentFirstLine)) }
  let bulletData : Option BulletOut :=
    m.bullet.map (fun b =>
      { listId := b.listId, nestingLevel := b.nestingLevel.getD 0, glyph := b.glyph })
  (pStyle, bulletData)

/-- `applyMarkerToRuns`: stamp the marker paragraph data onto a run group. -/
def applyMarkerToRuns (m : MarkerIn) (rs : List RunOut) : List RunOut :=
  let pd := buildParagraphData m
  rs.map (fun r => { r with paragraphStyle := some pd.1, bullet := pd.2 })

/-- The default paragraph style for runs with no preceding marker:
`{ align: 'left' }`. -/
def defaultPStyle : PStyleOut :=
  { align := "left", direction := none, spacingMode := none,
    spaceAbove := none, spaceBelow := none, lineSpacing := none,
    indentStart := none, indentFirstLine := none }

/-- The default paragraph data for runs with no preceding marker:
`paragraphStyle = { align: 'left' }`, no bullet. -/
def applyDefaultToRuns (rs : List RunOut) : List RunOut :=
  rs.map (fun r => { r with paragraphStyle := some defaultPStyle, bullet := none })

/-- Flush a collected run group with the pending marker if any,
otherwise with the defaults; an empty group flushes to nothing. -/
def flushGroup (pending : Option MarkerIn) (cur : List RunOut) : List RunOut :=
  if cur.isEmpty then []
  else
    match pending with
    | some m => applyMarkerToRuns m cur
    | none => applyDefaultToRuns cur

/-- Build one decoded run from a text run element (non-empty content).
Colors resolve through the per-slide chain of maps. -/
def mkRunOut (slideMap staticMap activeMap : ColorMap) (style : Option RunStyleIn)
    (content : Str) : RunOut :=
  let st := style
  let color :=
    match st.bind (·.foregroundColor) with
    | some (.rgbColor c) => rgbToHexAdvanced c
    | some (.themeColor k) => resolveRunThemeColor slideMap staticMap activeMap k
    | none => "#000000"
  let fontSize :=
    match st.bind (·.fontSize) with
    | none => none
    | some m => if m = 0 then none else some ((jsRoundQ (m * 10) : ℚ) / 10)
  { text := content
    color := color
    fontSize := fontSize
    fontFamily := st.bind (·.fontFamily)
    bold := st.bind (·.bold)
    italic := st.bind (·.italic)
    underline := (st.bind (·.underline)).getD false
    strikethrough := (st.bind (·.strikethrough)).getD false
    smallCaps := (st.bind (·.smallCaps)).getD false
    linkUrl := if truthyS (st.bind (·.linkUrl)) then st.bind (·.linkUrl) else none
    paragraphStyle := none
    bullet := none }

/-- The marker-first state machine of `extractTextAdvanced`: on a marker,
flush the collected group with the previously pending marker and make the
new marker pending; on a run, append it to the current group; at end of
stream, flush the remaining group with the last pending marker. -/
def extractTextLoop (slideMap staticMap activeMap : ColorMap) :
    List TElem → Option MarkerIn → List RunOut → List RunOut → Str →
    Str × List RunOut
  | [], pending, cur, acc, pt => (pt, acc ++ flushGroup pending cur)
  | .marker m :: rest, pending, cur, acc, pt =>
    extractTextLoop slideMap staticMap activeMap rest (some m) []
      (acc ++ flushGroup pending cur) pt
  | .run r :: rest, pending, cur, acc, pt =>
    let content := r.content.getD []
    if content = [] then
      extractTextLoop slideMap staticMap activeMap rest pending cur acc pt
    else
      extractTextLoop slideMap staticMap activeMap rest pending
        (cur ++ [mkRunOut slideMap staticMap activeMap r.style content]) acc
        (pt ++ content)

/-- Trailing newline cleanup on the decoded run list: strip one final
newline from the last run; drop the run if that empties it and other
runs remain. -/
def cleanupRuns (runs : List RunOut) : List RunOut :=
  match runs.getLast? with
  | none => runs
  | some lr =>
    if strEndsWithNl lr.text then
      let lr' := { lr with text := lr.text.dropLast }
      if lr'.text = [] ∧ runs.length > 1 then runs.dropLast
      else runs.dropLast ++ [lr']
    else runs

/-- Trailing newline cleanup on the plain text. -/
def cleanupPlainText (pt : Str) : Str :=
  if strEndsWithNl pt then pt.dropLast else pt

/-- One direction of `inheritMissingRunStyles`: fill missing fontSize and
fontFamily from the nearest already-processed neighbor. -/
def inheritPass : Option RunOut → List RunOut → List RunOut
  | _, [] => []
  | none, r :: rest => r :: inheritPass (some r) rest
  | some p, r :: rest =>
    let r' :=
      { r with
        fontSize := if r.fontSize.isNone ∧ p.fontSize.isSome then p.fontSize else r.fontSize
        fontFamily :=
          if r.fontFamily.isNone ∧ p.fontFamily.isSome then p.fontFamily else r.fontFamily }
    r' :: inheritPass (some r') rest

/-- `inheritMissingRunStyles`: a forward pass, then a backward pass. -/
def inheritMissingRunStyles (runs : List RunOut) : List RunOut :=
  let fwd := inheritPass none runs
  (inheritPass none fwd.reverse).reverse

/-- `extractTextAdvanced(textElements, slideIndex)` with the color maps
in scope made explicit parameters. -/
def extractTextAdvanced (slideMap staticMap activeMap : ColorMap)
    (textElements : List TElem) : TextData :=
  let res := extractTextLoop slideMap staticMap activeMap textElements none [] [] []
  { plainText := cleanupPlainText res.1
    runs := inheritMissingRunStyles (cleanupRuns res.2) }

/-! ## Text encode: `buildTextContentRequests` -/

/-- An emitted mutation request, reduced to its kind and text range.
Style payloads never influence which requests are emitted or their
ranges (`fontSize` and `fontFamily` are always pushed, so the per-run
field list is never empty) and are not modelled. -/
inductive Request where
  | insertText (text : Str) (insertionIndex : ℕ)
  | deleteParagraphBullets (startIndex endIndex : ℕ)
  | createParagraphBullets (startIndex endIndex : ℕ)
  | updateTextStyle (startIndex endIndex : ℕ)
  | updateTextStyleAll
  | updateParagraphStyle (startIndex endIndex : ℕ)
  | updateParagraphStyleAll
deriving DecidableEq

/-- The character classes removed by the text cleanup regex: codes 0 to
9, 0B, 0C, 0E to 1F, 7F, the zero-width range 200B to 200D, FEFF, FFFC
and FFFD. -/
def isCleanedChar (c : Char) : Bool :=
  c.val ≤ 0x09 || c.val = 0x0B || c.val = 0x0C ||
  (0x0E ≤ c.val && c.val ≤ 0x1F) || c.val = 0x7F ||
  (0x200B ≤ c.val && c.val ≤ 0x200D) || c.val = 0xFEFF ||
  c.val = 0xFFFC || c.val = 0xFFFD

/-- Clean text but preserve formatting characters (newlines survive). -/
def cleanText (s : Str) : Str :=
  s.filter (fun c => !isCleanedChar c)

/-- Truthiness of the strict bullet check
`run.bullet && (run.bullet.listId || run.bullet.glyph)`. -/
def bulletTruthy (b : Option BulletOut) : Bool :=
  match b with
  | none => false
  | some b => truthyS b.listId || truthyS b.glyph

/-- True when at least one paragraph style field would be pushed for the
run (`pFields.length > 0`). -/
def pFieldsNonempty (ps : PStyleOut) : Bool :=
  ps.align ≠ "" || ps.indentStart.isSome || ps.indentFirstLine.isSome ||
  ps.spaceAbove.isSome || ps.spaceBelow.isSome || ps.lineSpacing.isSome

/-- The per-run loop of the multi-run path.  Returns, in emission order,
the text style requests pushed directly, and the separately collected
bullet-create, bullet-delete and paragraph-style requests.  A zero-length
run is skipped entirely (but still becomes the predecessor used by the
paragraph-start test of the next run). -/
def encodeLoop : List RunOut → Option RunOut → ℕ →
    List Request × List Request × List Request × List Request
  | [], _, _ => ([], [], [], [])
  | r :: rest, prev, cur =>
    let len := r.text.length
    if len = 0 then encodeLoop rest (some r) cur
    else
      let isParaStart : Bool :=
        match prev with
        | none => true
        | some p => strEndsWithNl p.text
      let creates :=
        if isParaStart && bulletTruthy r.bullet then
          [Request.createParagraphBullets cur (cur + len)]
        else []
      let deletes :=
        if isParaStart && !bulletTruthy r.bullet then
          [Request.deleteParagraphBullets cur (cur + len)]
        else []
      let pstyles :=
        if isParaStart then
          match r.paragraphStyle with
          | some ps =>
            if pFieldsNonempty ps then [Request.updateParagraphStyle cur (cur + len)]
            else []
          | none => []
        else []
      let next := encodeLoop rest (some r) (cur + len)
      (Request.updateTextStyle cur (cur + len) :: next.1,
        creates ++ next.2.1, deletes ++ next.2.2.1, pstyles ++ next.2.2.2)

/-- The element fields consumed by `buildTextContentRequests`.  An absent
`textRuns` array is the empty list; the `items` array path is not
modelled (no claim supplies items). -/
structure BElem where
  text : Str
  textRuns : List RunOut
  align : Option String

/-- `buildTextContentRequests(element, shapeId)`.  With more than one
text run: insert the concatenated run text, clean any default bullets
over the whole range, emit per-run text styles during the loop, style the
trailing auto-inserted newline character, then append the collected
bullet-create, bullet-delete and paragraph-style requests in that order.
Otherwise the legacy path inserts the cleaned element text with
whole-range styling. -/
def buildTextContentRequests (el : BElem) : List Request :=
  let textContent := cleanText el.text
  if textContent = [] then []
  else if el.textRuns.length > 1 then
    let runsText := (el.textRuns.map (·.text)).flatten
    let loops := encodeLoop el.textRuns none 0
    let trailing :=
      if el.textRuns.length > 0 then
        [Request.updateTextStyle runsText.length (runsText.length + 1)]
      else []
    Request.insertText runsText 0 ::
      Request.deleteParagraphBullets 0 runsText.length ::
      (loops.1 ++ trailing ++ loops.2.1 ++ loops.2.2.1 ++ loops.2.2.2)
  else
    Request.insertText textContent 0 :: Request.updateTextStyleAll ::
      (if truthyS el.align then [Request.updateParagraphStyleAll] else [])

/-- The wiring in `extractShapeAdvanced` that turns decoded text data
into the builder element: `text` is the plain text, `textRuns` is the run
list only when it has more than one entry (with run colors passed through
`resolveThemeColor`), and `align` echoes the first paragraph style. -/
def mkTextElement (staticMap activeMap : ColorMap) (td : TextData) : BElem :=
  { text := td.plainText
    textRuns :=
      if td.runs.length > 1 then
        td.runs.map (fun r =>
          { r with color := resolveThemeColor staticMap activeMap (some r.color) })
      else []
    align :=
      match td.runs with
      | [] => none
      | r :: _ =>
        match r.paragraphStyle with
        | none => none
        | some ps => some (if ps.align = "" then "left" else ps.align) }

/-! ## Specification-side definitions

These definitions restate spec sentences directly; the refinement
theorems below compare them with the embedded source functions. -/

/-- Stated from the spec: a marker element always describes the paragraph
that follows it, so a run is styled by the most recent marker seen before
it (or by the default left-aligned, bullet-free style when none). -/
def stampMarker (pending : Option MarkerIn) (r : RunOut) : RunOut :=
  match pending with
  | some m =>
    let pd := buildParagraphData m
    { r with paragraphStyle := some pd.1, bullet := pd.2 }
  | none => { r with paragraphStyle := some defaultPStyle, bullet := none }

/-- Stated from the spec: decode assigns each non-empty run the marker
most recently preceding it in the stream, directly at collection time. -/
def specDecodeRuns (slideMap staticMap activeMap : ColorMap) :
    List TElem → Option MarkerIn → List RunOut
  | [], _ => []
  | .marker m :: rest, _ => specDecodeRuns slideMap staticMap activeMap rest (some m)
  | .run r :: rest, pending =>
    let content := r.content.getD []
    if content = [] then specDecodeRuns slideMap staticMap activeMap rest pending
    else
      stampMarker pending (mkRunOut slideMap staticMap activeMap r.style content) ::
        specDecodeRuns slideMap staticMap activeMap rest pending

/-- Stated from the spec: walk the resolution tiers in order and return
the first non-empty hit, with the hardcoded terminal fallback. -/
def specTierLookup : List (Option String) → String
  | [] => "#000000"
  | o :: rest => if truthyS o then o.getD "#000000" else specTierLookup rest

/-! ## Well-formed streams for the round-trip theorem -/

/-- A paragraph block of the flat stream: one marker followed by the runs
of that paragraph. -/
structure TBlock where
  marker : MarkerIn
  runs : List RunIn
deriving DecidableEq

/-- The stream elements of one block. -/
def blockElems (b : TBlock) : List TElem :=
  .marker b.marker :: b.runs.map .run

/-- A flat stream assembled from paragraph blocks. -/
def streamOfBlocks (bs : List TBlock) : List TElem :=
  (bs.map blockElems).flatten

/-- The text of one block: its run contents concatenated. -/
def blockText (b : TBlock) : Str :=
  (b.runs.map (fun r => r.content.getD [])).flatten

/-- The full plain text of a stream of blocks. -/
def streamText (bs : List TBlock) : Str :=
  (bs.map blockText).flatten

/-- No character of the run is removed by the cleanup regex and the run
contains no newline. -/
def plainRun (s : Str) : Prop :=
  (∀ c ∈ s, ¬ isCleanedChar c) ∧ '\n' ∉ s

/-- A well-formed paragraph block: at least one run, every run non-empty
and free of cleaned characters, newlines appearing only as the final
character of the final run, which is newline-terminated. -/
def WFBlock (b : TBlock) : Prop :=
  b.runs ≠ [] ∧
  (∀ r ∈ b.runs, r.content.getD [] ≠ []) ∧
  (∀ r ∈ b.runs.dropLast, plainRun (r.content.getD [])) ∧
  (∀ r ∈ b.runs.getLast?.toList,
    strEndsWithNl (r.content.getD []) ∧ plainRun ((r.content.getD []).dropLast))

/-- A well-formed stream of blocks: non-empty, all blocks well-formed,
and the final paragraph not consisting of a bare newline (so that the
trailing-newline cleanup does not drop a whole paragraph). -/
def WFStream (bs : List TBlock) : Prop :=
  bs ≠ [] ∧ (∀ b ∈ bs, WFBlock b) ∧
  (∀ b ∈ bs.getLast?.toList, ∀ r ∈ b.runs.getLast?.toList, r.content.getD [] ≠ ['\n'])

/-- Character offsets at which the successive blocks start, from a given
base offset. -/
def blockOffsets (o : ℕ) : List TBlock → List ℕ
  | [] => []
  | b :: rest => o :: blockOffsets (o + (blockText b).length) rest

/-- Whether the marker of a block passes the strict bullet check used by
the encoder. -/
def blockHasBullet (b : TBlock) : Bool :=
  bulletTruthy (buildParagraphData b.marker).2

/-- The startIndex of a range request (insertion index for inserts). -/
def reqStart : Request → ℕ
  | .insertText _ i => i
  | .deleteParagraphBullets s _ => s
  | .createParagraphBullets s _ => s
  | .updateTextStyle s _ => s
  | .updateParagraphStyle s _ => s
  | .updateTextStyleAll => 0
  | .updateParagraphStyleAll => 0

/-- The endIndex of a range request. -/
def reqEnd : Request → ℕ
  | .insertText t i => i + t.length
  | .deleteParagraphBullets _ e => e
  | .createParagraphBullets _ e => e
  | .updateTextStyle _ e => e
  | .updateParagraphStyle _ e => e
  | .updateTextStyleAll => 0
  | .updateParagraphStyleAll => 0

/-- The concatenated contents of the run elements of a stream (exactly
the plain text the decode loop accumulates). -/
def runContents : List TElem → Str
  | [] => []
  | .marker _ :: rest => runContents rest
  | .run r :: rest => r.content.getD [] ++ runContents rest

/-- Total length of the texts of the first `i` runs: the cumulative
prior run length used for range indices. -/
def prefLen (runs : List RunOut) (i : ℕ) : ℕ :=
  ((runs.take i).map (fun r => r.text.length)).sum

/-- Recognize a ranged bullet-create request. -/
def isCreateReq : Request → Bool
  | .createParagraphBullets _ _ => true
  | _ => false

/-- Recognize a ranged bullet-delete request. -/
def isDeleteReq : Request → Bool
  | .deleteParagraphBullets _ _ => true
  | _ => false

/-- Recognize a ranged paragraph-style request. -/
def isPStyleReq : Request → Bool
  | .updateParagraphStyle _ _ => true
  | _ => false

/-- The projection of a decoded run that the encoder inspects: its text,
paragraph style and bullet. -/
def obsRun (r : RunOut) : Str × Option PStyleOut × Option BulletOut :=
  (r.text, r.paragraphStyle, r.bullet)

/-- Total text length of a run group. -/
def groupLen (g : List RunOut) : ℕ := ((g.map (·.text)).flatten).length

/-- Character offsets at which the successive run groups start. -/
def groupOffsets (o : ℕ) : List (List RunOut) → List ℕ
  | [] => []
  | g :: rest => o :: groupOffsets (o + groupLen g) rest

/-- The shared bullet of a run group (taken from its first run). -/
def groupBullet (g : List RunOut) : Option BulletOut :=
  match g with
  | [] => none
  | r :: _ => r.bullet

/-- The decoded run group of one paragraph block: its non-empty run
contents, stamped with the block marker. -/
def blockRunsOut (slideMap staticMap activeMap : ColorMap) (b : TBlock) : List RunOut :=
  applyMarkerToRuns b.marker
    ((b.runs.filter (fun r => !(r.content.getD []).isEmpty)).map
      (fun r => mkRunOut slideMap staticMap activeMap r.style (r.content.getD [])))

/-- The empty color map used by concrete round-trip evaluations. -/
def noColors : ColorMap := fun _ => none

/-- A concrete well-formed two-paragraph stream: a bullet-free header
paragraph and a bulleted item paragraph. -/
def twoParaBlocks : List TBlock :=
  [{ marker := { style := none, bullet := none },
     runs := [{ content := some ("Header\n".data), style := none }] },
   { marker := { style := none,
                 bullet := some { listId := some "L1", nestingLevel := none, glyph := none } },
     runs := [{ content := some ("Item\n".data), style := none }] }]

/-- A one-paragraph stream whose single run contains a tab character. -/
def tabBlocks : List TBlock :=
  [{ marker := { style := none, bullet := none },
     runs := [{ content := some ("a\tb\n".data), style := none }] }]

/-! ## Shared helper lemmas -/

/-- Strict positivity of arctan on positive inputs. -/
lemma arctan_pos_of_pos {x : ℝ} (hx : 0 < x) : 0 < Real.arctan x := by
  have h := Real.arctan_strictMono hx
  rwa [Real.arctan_zero] at h

/-- Arctan is dominated by the identity on positive inputs. -/
lemma arctan_lt_self_of_pos {x : ℝ} (hx : 0 < x) : Real.arctan x < x := by
  have h1 : 0 < Real.arctan x := arctan_pos_of_pos hx
  have h2 := Real.lt_tan h1 (Real.arctan_lt_pi_div_two x)
  rwa [Real.tan_arctan] at h2

/-- `Math.atan2` lands in the half-open interval from `-π` to `π`. -/
lemma atan2_bounds (y x : ℝ) : -π < atan2 y x ∧ atan2 y x ≤ π := by
  have hpi := Real.pi_pos
  have ha1 := Real.arctan_lt_pi_div_two (y / x)
  have ha2 := Real.neg_pi_div_two_lt_arctan (y / x)
  unfold atan2
  split_ifs with h1 h2 h3 h4 h5
  · constructor <;> nlinarith
  · have hyx : y / x ≤ 0 := div_nonpos_of_nonneg_of_nonpos h3 h2.le
    have hle : Real.arctan (y / x) ≤ 0 := by
      have := Real.arctan_strictMono.monotone hyx
      rwa [Real.arctan_zero] at this
    constructor <;> nlinarith
  · have hyx : 0 < y / x := div_pos_of_neg_of_neg (lt_of_not_le h3) h2
    have hgt : 0 < Real.arctan (y / x) := arctan_pos_of_pos hyx
    constructor <;> nlinarith
  · constructor <;> nlinarith
  · constructor <;> nlinarith
  · constructor <;> nlinarith

/-- Evaluate the JavaScript rounding at a value with known bounds. -/
lemma jsRound_eq {n : ℤ} {x : ℝ} (h1 : (n : ℝ) ≤ x + 1/2) (h2 : x + 1/2 < n + 1) :
    jsRound x = n := by
  unfold jsRound
  exact Int.floor_eq_iff.mpr ⟨h1, h2⟩

/-! ## C7: composition with the identity transform -/

/-- C7: for an arbitrary (fully specified) affine transform M, composing
with the identity transform on either side returns M unchanged. -/
theorem composeTransforms_identity (a b c d e f r : ℝ) :
    composeTransforms identityTransform ⟨some a, some b, some c, some d, some e, some f, some r⟩ =
      ⟨some a, some b, some c, some d, some e, some f, some r⟩ ∧
    composeTransforms ⟨some a, some b, some c, some d, some e, some f, some r⟩ identityTransform =
      ⟨some a, some b, some c, some d, some e, some f, some r⟩ := by
  constructor <;> · simp [composeTransforms, identityTransform]

/-! ## C1: defaulting of omitted transform fields -/

/-- C1 counterexample: a transform carrying only `translateX` has a
transform field present, yet the omitted `scaleX` is resolved to 1 (the
identity default), not 0: only the four linear fields are consulted. -/
theorem resolvedScaleX_translateOnly :
    (Transform.mk none none none none (some 5) none none).scaleX = none ∧
    (Transform.mk none none none none (some 5) none none).translateX.isSome = true ∧
    resolvedScaleX (Transform.mk none none none none (some 5) none none) = 1 ∧
    resolvedScaleX (Transform.mk none none none none (some 5) none none) ≠ 0 := by
  refine ⟨rfl, rfl, ?_, ?_⟩ <;>
    simp [resolvedScaleX, defaultScale, hasAnyTransformValue]

/-- C1 amended: an omitted scale field is treated as 0 whenever any of
the four linear fields (scaleX, scaleY, shearX, shearY) is present; the
transform defaults to the identity (scale 1, shear 0) exactly when no
linear field is present; and with the scale fields omitted the width
scale factor is recovered from the shear component alone. -/
theorem scaleDefault_linearFields (t : Transform) :
    (t.scaleX = none →
      t.scaleY.isSome = true ∨ t.shearX.isSome = true ∨ t.shearY.isSome = true →
      resolvedScaleX t = 0) ∧
    (t.scaleY = none →
      t.scaleX.isSome = true ∨ t.shearX.isSome = true ∨ t.shearY.isSome = true →
      resolvedScaleY t = 0) ∧
    (t.scaleX = none → t.scaleY = none → t.shearX = none → t.shearY = none →
      resolvedScaleX t = 1 ∧ resolvedScaleY t = 1 ∧
        resolvedShearX t = 0 ∧ resolvedShearY t = 0) ∧
    (t.scaleX = none → t.shearY.isSome = true → scaleW t = |resolvedShearY t|) := by
  refine ⟨?_, ?_, ?_, ?_⟩
  · intro hx h
    rcases h with h | h | h <;>
      simp [resolvedScaleX, hx, defaultScale, hasAnyTransformValue, h]
  · intro hy h
    rcases h with h | h | h <;>
      simp [resolvedScaleY, hy, defaultScale, hasAnyTransformValue, h]
  · intro h1 h2 h3 h4
    refine ⟨?_, ?_, ?_, ?_⟩ <;>
      simp [resolvedScaleX, resolvedScaleY, resolvedShearX, resolvedShearY,
        defaultScale, hasAnyTransformValue, h1, h2, h3, h4]
  · intro hx hy
    have h0 : resolvedScaleX t = 0 := by
      simp [resolvedScaleX, hx, defaultScale, hasAnyTransformValue, hy]
    rw [scaleW, h0]
    have h1 : (0:ℝ) * 0 + resolvedShearY t * resolvedShearY t = (resolvedShearY t) ^ 2 := by
      ring
    rw [h1, Real.sqrt_sq_eq_abs]

/-- Witness: the amended defaulting rule applied at concrete transforms. -/
theorem scaleDefault_linearFields_witness :
    resolvedScaleX ⟨none, some 2, none, none, none, none, none⟩ = 0 ∧
    resolvedScaleX ⟨none, none, none, none, some 5, none, none⟩ = 1 ∧
    scaleW ⟨none, none, some 1, some (-1), none, none, none⟩ =
      |resolvedShearY ⟨none, none, some 1, some (-1), none, none, none⟩| := by
  refine ⟨(scaleDefault_linearFields _).1 rfl (Or.inl rfl), ?_, ?_⟩
  · exact ((scaleDefault_linearFields _).2.2.1 rfl rfl rfl rfl).1
  · exact (scaleDefault_linearFields _).2.2.2 rfl rfl

/-! ## C8: theme color resolution order -/

/-- C8: for every token and slide index, run color resolution walks the
per-slide resolved map, the static presentation map, the active
known-theme map and the hardcoded default palette in order, first
non-empty hit winning; a token missing from every tier resolves to the
hardcoded black fallback and is never fatal. -/
theorem resolveRunThemeColor_tiers (slideMaps : ℕ → Option ColorMap)
    (staticMap activeMap : ColorMap) (i : ℕ) (k : String) :
    resolveRunThemeColor (getResolvedThemeColorMap slideMaps i) staticMap activeMap k =
      specTierLookup [getResolvedThemeColorMap slideMaps i k, staticMap k,
        activeMap k, DEFAULT_THEME_COLORS k] ∧
    (getResolvedThemeColorMap slideMaps i k = none → staticMap k = none →
      activeMap k = none → DEFAULT_THEME_COLORS k = none →
      resolveRunThemeColor (getResolvedThemeColorMap slideMaps i) staticMap activeMap k =
        "#000000") := by
  constructor
  · by_cases h1 : truthyS (getResolvedThemeColorMap slideMaps i k) = true <;>
    by_cases h2 : truthyS (staticMap k) = true <;>
    by_cases h3 : truthyS (activeMap k) = true <;>
    by_cases h4 : truthyS (DEFAULT_THEME_COLORS k) = true <;>
      simp [resolveRunThemeColor, specTierLookup, jsOrS, jsOrStr, h1, h2, h3, h4]
  · intro e1 e2 e3 e4
    simp [resolveRunThemeColor, jsOrS, jsOrStr, truthyS, e1, e2, e3, e4]

/-- Witness: a token found in no tier resolves to the black fallback. -/
theorem resolveRunThemeColor_tiers_witness :
    resolveRunThemeColor (getResolvedThemeColorMap (fun _ => none) 0)
      (fun _ => none) (fun _ => none) "BOGUS" = "#000000" :=
  (resolveRunThemeColor_tiers (fun _ => none) (fun _ => none) (fun _ => none) 0 "BOGUS").2
    rfl rfl rfl (by decide)

/-! ## C9: range of the reported rotation -/

/-- C9 counterexample: a transform whose rotation is a hair below 360
degrees is reported as exactly 360 after rounding, so the reported value
is not always strictly below 360. -/
theorem rotationDeg_reaches_360 :
    rotationDeg ⟨some 1, none, none, some (-(1/100000)), none, none, none⟩ = 360 := by
  have hpi := Real.pi_pos
  have hpi3 := Real.pi_gt_three
  set ε : ℝ := 1/100000 with hε
  have hε0 : (0:ℝ) < ε := by norm_num [hε]
  have harc_pos : 0 < Real.arctan ε := arctan_pos_of_pos hε0
  have harc_lt : Real.arctan ε < ε := arctan_lt_self_of_pos hε0
  have hsx : resolvedScaleX ⟨some 1, none, none, some (-(1/100000)), none, none, none⟩ = 1 := rfl
  have hsy : resolvedShearY ⟨some 1, none, none, some (-(1/100000)), none, none, none⟩ =
      -(1/100000) := rfl
  have hrad : rotationRad ⟨some 1, none, none, some (-(1/100000)), none, none, none⟩ =
      -(Real.arctan ε) := by
    rw [rotationRad, hsx, hsy, atan2, if_pos one_pos, div_one, ← hε, Real.arctan_neg]
  have hraw : rotationDegRaw ⟨some 1, none, none, some (-(1/100000)), none, none, none⟩ =
      -(Real.arctan ε) * (180 / π) := by
    rw [rotationDegRaw, hrad]
  have hraw_neg : rotationDegRaw ⟨some 1, none, none, some (-(1/100000)), none, none, none⟩ < 0 := by
    rw [hraw]
    have : 0 < 180 / π := by positivity
    nlinarith
  have hnorm : rotationDegNorm ⟨some 1, none, none, some (-(1/100000)), none, none, none⟩ =
      -(Real.arctan ε) * (180 / π) + 360 := by
    rw [rotationDegNorm, if_pos hraw_neg, hraw]
  have hA_pos : 0 < Real.arctan ε * (180 / π) := by
    have : 0 < 180 / π := by positivity
    nlinarith
  have hA_lt : Real.arctan ε * (180 / π) * 100 < 1/2 := by
    have h1 : 180 / π < 60 := by
      rw [div_lt_iff₀ hpi]
      nlinarith
    have h2 : Real.arctan ε * (180 / π) < ε * 60 :=
      mul_lt_mul'' harc_lt h1 harc_pos.le (by positivity)
    have h3 := mul_lt_mul_of_pos_right h2 (show (0:ℝ) < 100 by norm_num)
    rw [hε] at h3
    nlinarith
  have hround : jsRound (rotationDegNorm
      ⟨some 1, none, none, some (-(1/100000)), none, none, none⟩ * 100) = 36000 := by
    apply jsRound_eq <;> rw [hnorm] <;> push_cast <;> nlinarith
  rw [rotationDeg, hround]
  norm_num

/-- C9 amended: the reported rotation always lies in the closed interval
from 0 to 360 degrees: it is computed via atan2, normalized into the
half-open 0..360 range, and the final two-decimal rounding can push a
value just below 360 up to exactly 360, never beyond. -/
theorem rotationDeg_bounds (t : Transform) :
    0 ≤ rotationDeg t ∧ rotationDeg t ≤ 360 := by
  obtain ⟨hlo, hhi⟩ := atan2_bounds (resolvedShearY t) (resolvedScaleX t)
  have hpi := Real.pi_pos
  have hfrac : (0:ℝ) < 180 / π := by positivity
  have h180 : π * (180 / π) = 180 := by
    rw [mul_comm]
    exact div_mul_cancel₀ 180 hpi.ne'
  have hraw_lo : -180 < rotationDegRaw t := by
    rw [rotationDegRaw, rotationRad]
    have h := mul_lt_mul_of_pos_right hlo hfrac
    rw [neg_mul, h180] at h
    exact h
  have hraw_hi : rotationDegRaw t ≤ 180 := by
    rw [rotationDegRaw, rotationRad]
    have h := mul_le_mul_of_nonneg_right hhi hfrac.le
    rw [h180] at h
    exact h
  have hnorm_lo : 0 ≤ rotationDegNorm t := by
    rw [rotationDegNorm]
    split_ifs with h <;> linarith
  have hnorm_hi : rotationDegNorm t < 360 := by
    rw [rotationDegNorm]
    split_ifs with h <;> linarith
  have h1 : (0:ℤ) ≤ jsRound (rotationDegNorm t * 100) := by
    unfold jsRound
    apply Int.floor_nonneg.mpr
    linarith
  have h2 : jsRound (rotationDegNorm t * 100) ≤ 36000 := by
    unfold jsRound
    have : rotationDegNorm t * 100 + 1/2 < ((36001 : ℤ) : ℝ) := by push_cast; linarith
    have hlt := Int.floor_lt.mpr this
    omega
  constructor
  · rw [rotationDeg]
    have : (0:ℝ) ≤ (jsRound (rotationDegNorm t * 100) : ℝ) := by exact_mod_cast h1
    linarith
  · rw [rotationDeg]
    have : (jsRound (rotationDegNorm t * 100) : ℝ) ≤ 36000 := by exact_mod_cast h2
    linarith

/-! ## Decode loop lemmas -/

/-- Stamping a marker never changes the text of a run. -/
lemma stampMarker_text (p : Option MarkerIn) (r : RunOut) :
    (stampMarker p r).text = r.text := by
  cases p <;> simp [stampMarker]

/-- Flushing a group stamps the pending marker onto every run. -/
lemma flushGroup_eq_map (p : Option MarkerIn) (cur : List RunOut) :
    flushGroup p cur = cur.map (stampMarker p) := by
  cases cur <;> cases p <;>
    simp [flushGroup, applyMarkerToRuns, applyDefaultToRuns, stampMarker]

/-- The run list produced by the decode loop: the stamped pending group
followed by the spec-side marker-first decoding of the remaining stream. -/
lemma extractTextLoop_runs (slideMap staticMap activeMap : ColorMap) (es : List TElem) :
    ∀ (pending : Option MarkerIn) (cur acc : List RunOut) (pt : Str),
      (extractTextLoop slideMap staticMap activeMap es pending cur acc pt).2 =
        acc ++ cur.map (stampMarker pending) ++
          specDecodeRuns slideMap staticMap activeMap es pending := by
  induction es with
  | nil =>
    intro pending cur acc pt
    simp [extractTextLoop, specDecodeRuns, flushGroup_eq_map]
  | cons e rest ih =>
    intro pending cur acc pt
    cases e with
    | marker m =>
      simp only [extractTextLoop, specDecodeRuns, ih, flushGroup_eq_map]
      simp
    | run r =>
      by_cases hc : r.content.getD [] = []
      · simp only [extractTextLoop, specDecodeRuns]
        rw [if_pos hc, if_pos hc, ih]
      · simp only [extractTextLoop, specDecodeRuns]
        rw [if_neg hc, if_neg hc, ih]
        simp [stampMarker_text]

/-- The plain text accumulated by the decode loop is the concatenation
of the run contents of the stream. -/
lemma extractTextLoop_pt (slideMap staticMap activeMap : ColorMap) (es : List TElem) :
    ∀ (pending : Option MarkerIn) (cur acc : List RunOut) (pt : Str),
      (extractTextLoop slideMap staticMap activeMap es pending cur acc pt).1 =
        pt ++ runContents es := by
  induction es with
  | nil => intro pending cur acc pt; simp [extractTextLoop, runContents]
  | cons e rest ih =>
    intro pending cur acc pt
    cases e with
    | marker m => simp [extractTextLoop, runContents, ih]
    | run r =>
      by_cases hc : r.content.getD [] = []
      · simp only [extractTextLoop, runContents]
        rw [if_pos hc, ih, hc]
        simp
      · simp only [extractTextLoop, runContents]
        rw [if_neg hc, ih]
        simp

/-- The texts of the spec-side decoded runs concatenate to the stream
run contents. -/
lemma specDecodeRuns_texts (slideMap staticMap activeMap : ColorMap) (es : List TElem) :
    ∀ pending, ((specDecodeRuns slideMap staticMap activeMap es pending).map (·.text)).flatten =
      runContents es := by
  induction es with
  | nil => intro pending; simp [specDecodeRuns, runContents]
  | cons e rest ih =>
    intro pending
    cases e with
    | marker m => simp [specDecodeRuns, runContents, ih]
    | run r =>
      by_cases hc : r.content.getD [] = []
      · simp only [specDecodeRuns, runContents]
        rw [if_pos hc, ih, hc]
        simp
      · simp only [specDecodeRuns, runContents]
        rw [if_neg hc]
        simp [stampMarker_text, mkRunOut, ih]

/-- Every spec-side decoded run has non-empty text. -/
lemma specDecodeRuns_text_ne_nil (slideMap staticMap activeMap : ColorMap) (es : List TElem) :
    ∀ pending r, r ∈ specDecodeRuns slideMap staticMap activeMap es pending →
      r.text ≠ [] := by
  induction es with
  | nil => intro pending r hr; simp [specDecodeRuns] at hr
  | cons e rest ih =>
    intro pending r hr
    cases e with
    | marker m =>
      simp only [specDecodeRuns] at hr
      exact ih _ r hr
    | run rr =>
      by_cases hc : rr.content.getD [] = []
      · rw [specDecodeRuns, if_pos hc] at hr
        exact ih _ r hr
      · rw [specDecodeRuns, if_neg hc] at hr
        rcases List.mem_cons.mp hr with hr' | hr'
        · subst hr'
          simpa [stampMarker_text, mkRunOut] using hc
        · exact ih _ r hr'

/-- The observation projection is invariant under the style inheritance
pass. -/
lemma inheritPass_obs (rs : List RunOut) :
    ∀ p, (inheritPass p rs).map obsRun = rs.map obsRun := by
  induction rs with
  | nil => intro p; cases p <;> simp [inheritPass]
  | cons r rest ih =>
    intro p
    cases p <;> simp [inheritPass, obsRun, ih]

/-- The observation projection is invariant under
`inheritMissingRunStyles`. -/
lemma inheritMissingRunStyles_obs (rs : List RunOut) :
    (inheritMissingRunStyles rs).map obsRun = rs.map obsRun := by
  unfold inheritMissingRunStyles
  have h1 := inheritPass_obs rs none
  have h2 := inheritPass_obs (inheritPass none rs).reverse none
  calc ((inheritPass none (inheritPass none rs).reverse).reverse).map obsRun
      = ((inheritPass none (inheritPass none rs).reverse).map obsRun).reverse := by
        rw [List.map_reverse]
    _ = (((inheritPass none rs).reverse).map obsRun).reverse := by rw [h2]
    _ = (((inheritPass none rs).map obsRun).reverse).reverse := by rw [List.map_reverse]
    _ = ((rs.map obsRun).reverse).reverse := by rw [h1]
    _ = rs.map obsRun := by rw [List.reverse_reverse]

/-- Texts are preserved by any transformation preserving `obsRun`. -/
lemma map_text_of_map_obs {rs1 rs2 : List RunOut}
    (h : rs1.map obsRun = rs2.map obsRun) :
    rs1.map (·.text) = rs2.map (·.text) := by
  have h1 : rs1.map (·.text) = (rs1.map obsRun).map Prod.fst := by
    rw [List.map_map]; rfl
  have h2 : rs2.map (·.text) = (rs2.map obsRun).map Prod.fst := by
    rw [List.map_map]; rfl
  rw [h1, h2, h]

/-- Evaluation of the cleanup on a run list with explicit last element. -/
lemma cleanupRuns_concat (I : List RunOut) (lr : RunOut) :
    cleanupRuns (I ++ [lr]) =
      if strEndsWithNl lr.text then
        (if lr.text.dropLast = [] ∧ (I ++ [lr]).length > 1 then I
         else I ++ [{ lr with text := lr.text.dropLast }])
      else I ++ [lr] := by
  simp only [cleanupRuns, List.getLast?_concat, List.dropLast_concat]

/-- The run-list and plain-text trailing newline cleanups agree: on any
run list with non-empty texts whose concatenation is the plain text, the
cleaned run texts concatenate to the cleaned plain text. -/
lemma cleanupRuns_flatten (runs : List RunOut) (hne : ∀ r ∈ runs, r.text ≠ []) :
    ((cleanupRuns runs).map (·.text)).flatten =
      cleanupPlainText ((runs.map (·.text)).flatten) := by
  induction runs using List.reverseRecOn with
  | nil => simp [cleanupRuns, cleanupPlainText, strEndsWithNl]
  | append_singleton I lr _ =>
    have hlr : lr.text ≠ [] := hne lr (by simp)
    have hpt : ((I ++ [lr]).map (·.text)).flatten =
        (I.map (·.text)).flatten ++ lr.text := by simp
    have hglast : ((I ++ [lr]).map (·.text)).flatten.getLast? = lr.text.getLast? := by
      rw [hpt]
      exact List.getLast?_append_of_ne_nil _ hlr
    have hends : strEndsWithNl (((I ++ [lr]).map (·.text)).flatten) =
        strEndsWithNl lr.text := by
      rw [strEndsWithNl, strEndsWithNl, hglast]
    rw [cleanupRuns_concat]
    by_cases hnl : strEndsWithNl lr.text = true
    · rw [if_pos hnl]
      have hdrop : (((I ++ [lr]).map (·.text)).flatten).dropLast =
          (I.map (·.text)).flatten ++ lr.text.dropLast := by
        rw [hpt]
        exact List.dropLast_append_of_ne_nil _ hlr
      by_cases hsub : lr.text.dropLast = [] ∧ (I ++ [lr]).length > 1
      · rw [if_pos hsub, cleanupPlainText, if_pos (hends ▸ hnl), hdrop, hsub.1]
        simp
      · rw [if_neg hsub, cleanupPlainText, if_pos (hends ▸ hnl), hdrop]
        simp
    · rw [if_neg hnl, cleanupPlainText, if_neg (by rw [hends]; exact hnl)]

/-! ## C10: the runs partition the plain text -/

/-- C10: for every flat stream, the decoded plain text equals the
in-order concatenation of the decoded run texts, both taken after the
trailing-newline cleanup and empty-run dropping. -/
theorem extractText_plainText_eq_concat (slideMap staticMap activeMap : ColorMap)
    (es : List TElem) :
    (extractTextAdvanced slideMap staticMap activeMap es).plainText =
      ((extractTextAdvanced slideMap staticMap activeMap es).runs.map (·.text)).flatten := by
  unfold extractTextAdvanced
  simp only
  rw [extractTextLoop_pt slideMap staticMap activeMap es none [] [] [],
    extractTextLoop_runs slideMap staticMap activeMap es none [] [] []]
  simp only [List.nil_append, List.map_nil]
  rw [map_text_of_map_obs (inheritMissingRunStyles_obs _)]
  rw [cleanupRuns_flatten _ (specDecodeRuns_text_ne_nil slideMap staticMap activeMap es none)]
  rw [specDecodeRuns_texts slideMap staticMap activeMap es none]

/-! ## C4: markers style the runs that follow them -/

/-- C4: decode styles each run with the marker most recently preceding
it, never a following one: the decoded run list is exactly the spec-side
marker-first assignment (followed by the same cleanup and inheritance
passes); in the two-paragraph scenario the header keeps the first
(bullet-free) marker and the item keeps the second (bulleted) marker. -/
theorem extractText_marker_first (slideMap staticMap activeMap : ColorMap)
    (es : List TElem) :
    (extractTextAdvanced slideMap staticMap activeMap es).runs =
      inheritMissingRunStyles
        (cleanupRuns (specDecodeRuns slideMap staticMap activeMap es none)) ∧
    ((extractTextAdvanced (fun _ => none) (fun _ => none) (fun _ => none)
        [TElem.marker ⟨none, none⟩,
         TElem.run ⟨some ("Header\n".data), none⟩,
         TElem.marker ⟨none, some ⟨some "L1", none, none⟩⟩,
         TElem.run ⟨some ("Item\n".data), none⟩]).runs.map
      (fun r => (r.text, r.bullet.isSome)) =
      [("Header\n".data, false), ("Item".data, true)]) := by
  constructor
  · unfold extractTextAdvanced
    simp only
    rw [extractTextLoop_runs slideMap staticMap activeMap es none [] [] []]
    simp
  · decide

/-! ## Encode loop lemmas -/

/-- Skipping a zero-length run. -/
lemma encodeLoop_cons_zero (r : RunOut) (rest : List RunOut) (prev : Option RunOut)
    (cur : ℕ) (h : r.text.length = 0) :
    encodeLoop (r :: rest) prev cur = encodeLoop rest (some r) cur := by
  simp only [encodeLoop]
  rw [if_pos h]

/-- Each component of the encode loop result holds only requests of its
own kind: text styles in the direct part, then bullet creates, bullet
deletes and paragraph styles in the collected parts. -/
lemma encodeLoop_parts (runs : List RunOut) : ∀ (prev : Option RunOut) (cur : ℕ),
    (∀ q ∈ (encodeLoop runs prev cur).1,
      isCreateReq q = false ∧ isDeleteReq q = false ∧ isPStyleReq q = false) ∧
    (∀ q ∈ (encodeLoop runs prev cur).2.1,
      isCreateReq q = true ∧ isDeleteReq q = false ∧ isPStyleReq q = false) ∧
    (∀ q ∈ (encodeLoop runs prev cur).2.2.1,
      isDeleteReq q = true ∧ isCreateReq q = false ∧ isPStyleReq q = false) ∧
    (∀ q ∈ (encodeLoop runs prev cur).2.2.2,
      isPStyleReq q = true ∧ isCreateReq q = false ∧ isDeleteReq q = false) := by
  induction runs with
  | nil => intro prev cur; simp [encodeLoop]
  | cons r rest ih =>
    intro prev cur
    by_cases hlen : r.text.length = 0
    · rw [encodeLoop_cons_zero r rest prev cur hlen]
      exact ih (some r) cur
    · simp only [encodeLoop]
      rw [if_neg hlen]
      obtain ⟨ih1, ih2, ih3, ih4⟩ := ih (some r) (cur + r.text.length)
      refine ⟨?_, ?_, ?_, ?_⟩
      · intro q hq
        rcases List.mem_cons.mp hq with hq | hq
        · subst hq; simp [isCreateReq, isDeleteReq, isPStyleReq]
        · exact ih1 q hq
      · intro q hq
        rcases List.mem_append.mp hq with hq | hq
        · split_ifs at hq with hc
          · rcases List.mem_singleton.mp hq with rfl
            simp [isCreateReq, isDeleteReq, isPStyleReq]
          · simp at hq
        · exact ih2 q hq
      · intro q hq
        rcases List.mem_append.mp hq with hq | hq
        · split_ifs at hq with hc
          · rcases List.mem_singleton.mp hq with rfl
            simp [isCreateReq, isDeleteReq, isPStyleReq]
          · simp at hq
        · exact ih3 q hq
      · intro q hq
        rcases List.mem_append.mp hq with hq | hq
        · rcases hps : r.paragraphStyle with _ | ps <;> simp only [hps] at hq
          · split_ifs at hq <;> simp at hq
          · split_ifs at hq with h1 h2
            · rcases List.mem_singleton.mp hq with rfl
              simp [isCreateReq, isDeleteReq, isPStyleReq]
            · simp at hq
            · simp at hq
        · exact ih4 q hq

/-- Position bounds for an element recognized in the middle segment of a
three-segment list: a predicate false on the outer segments locates the
index inside the middle one. -/
lemma index_bounds_of_pred {α : Type} (f : α → Bool) (A B C : List α) (i : ℕ)
    (hi : i < (A ++ (B ++ C)).length)
    (hA : ∀ q ∈ A, f q = false) (hC : ∀ q ∈ C, f q = false)
    (hf : f ((A ++ (B ++ C)).get ⟨i, hi⟩) = true) :
    A.length ≤ i ∧ i < A.length + B.length := by
  have hlen : (A ++ (B ++ C)).length = A.length + (B.length + C.length) := by
    simp [List.length_append]
  constructor
  · by_contra hc
    push_neg at hc
    have e : (A ++ (B ++ C)).get ⟨i, hi⟩ = A[i] := by
      rw [List.get_eq_getElem]
      exact List.getElem_append_left hc
    rw [e, hA _ (List.getElem_mem hc)] at hf
    simp at hf
  · by_contra hc
    push_neg at hc
    have hge : A.length ≤ i := le_trans (Nat.le_add_right _ _) hc
    have hi2 : i - A.length < (B ++ C).length := by
      simp only [List.length_append]
      omega
    have e1 : (A ++ (B ++ C)).get ⟨i, hi⟩ = (B ++ C).get ⟨i - A.length, hi2⟩ := by
      rw [List.get_eq_getElem, List.get_eq_getElem]
      exact List.getElem_append_right hge
    have hge2 : B.length ≤ i - A.length := by omega
    have hi3 : i - A.length - B.length < C.length := by
      simp only [List.length_append] at hi2
      omega
    have e2 : (B ++ C).get ⟨i - A.length, hi2⟩ = C[i - A.length - B.length] := by
      rw [List.get_eq_getElem]
      exact List.getElem_append_right hge2
    rw [e1, e2, hC _ (List.getElem_mem hi3)] at hf
    simp at hf

/-- Transport of an indexed access along a list equality. -/
lemma get_congr {α : Type} {L L' : List α} (h : L = L') (i : ℕ) (hi : i < L.length) :
    L.get ⟨i, hi⟩ = L'.get ⟨i, h ▸ hi⟩ := by
  subst h
  rfl

/-- Membership of an indexed element. -/
lemma get_mem' {α : Type} (L : List α) (i : ℕ) (hi : i < L.length) :
    L.get ⟨i, hi⟩ ∈ L := by
  rw [List.get_eq_getElem]
  exact List.getElem_mem hi

/-! ## C6: bullet request ordering -/

/-- C6: in the request list emitted for a text element, every
bullet-create request precedes every bullet-delete request of the
per-paragraph passes (the only earlier delete is the whole-range cleanup
at position 1), and every ranged bullet request precedes every ranged
paragraph-style request. -/
theorem buildText_request_ordering (el : BElem) :
    ∀ i j (hi : i < (buildTextContentRequests el).length)
      (hj : j < (buildTextContentRequests el).length),
      (isCreateReq ((buildTextContentRequests el).get ⟨i, hi⟩) = true →
        isDeleteReq ((buildTextContentRequests el).get ⟨j, hj⟩) = true → j ≠ 1 → i < j) ∧
      ((isCreateReq ((buildTextContentRequests el).get ⟨i, hi⟩) = true ∨
        isDeleteReq ((buildTextContentRequests el).get ⟨i, hi⟩) = true) →
        isPStyleReq ((buildTextContentRequests el).get ⟨j, hj⟩) = true → i < j) := by
  intro i j hi hj
  by_cases h0 : cleanText el.text = []
  · have hL : buildTextContentRequests el = [] := by
      simp only [buildTextContentRequests]
      rw [if_pos h0]
    rw [hL] at hi
    simp at hi
  by_cases h1 : el.textRuns.length > 1
  · -- multi-run path
    have hL : buildTextContentRequests el =
        Request.insertText ((el.textRuns.map (·.text)).flatten) 0 ::
        Request.deleteParagraphBullets 0 ((el.textRuns.map (·.text)).flatten).length ::
        ((encodeLoop el.textRuns none 0).1 ++
          [Request.updateTextStyle ((el.textRuns.map (·.text)).flatten).length
            (((el.textRuns.map (·.text)).flatten).length + 1)] ++
          (encodeLoop el.textRuns none 0).2.1 ++
          (encodeLoop el.textRuns none 0).2.2.1 ++
          (encodeLoop el.textRuns none 0).2.2.2) := by
      simp only [buildTextContentRequests]
      rw [if_neg h0, if_pos h1, if_pos (by omega : el.textRuns.length > 0)]
    set R : Str := (el.textRuns.map (·.text)).flatten with hR
    set S := (encodeLoop el.textRuns none 0).1 with hS
    set C := (encodeLoop el.textRuns none 0).2.1 with hC
    set D := (encodeLoop el.textRuns none 0).2.2.1 with hD
    set P := (encodeLoop el.textRuns none 0).2.2.2 with hP
    set a0 := Request.insertText R 0 with ha0
    set a1 := Request.deleteParagraphBullets 0 R.length with ha1
    set T : List Request := [Request.updateTextStyle R.length (R.length + 1)] with hT
    obtain ⟨pS, pC, pD, pP⟩ := encodeLoop_parts el.textRuns none 0
    rw [← hS] at pS
    rw [← hC] at pC
    rw [← hD] at pD
    rw [← hP] at pP
    have hA0 : isCreateReq a0 = false ∧ isDeleteReq a0 = false ∧ isPStyleReq a0 = false := by
      simp [ha0, isCreateReq, isDeleteReq, isPStyleReq]
    have hA1 : isCreateReq a1 = false ∧ isDeleteReq a1 = true ∧ isPStyleReq a1 = false := by
      simp [ha1, isCreateReq, isDeleteReq, isPStyleReq]
    have hTq : ∀ q ∈ T, isCreateReq q = false ∧ isDeleteReq q = false ∧ isPStyleReq q = false := by
      intro q hq
      rcases List.mem_singleton.mp hq with rfl
      simp [isCreateReq, isDeleteReq, isPStyleReq]
    -- bullet-create requests live in the C segment
    have hCreateIdx : ∀ k (hk : k < (buildTextContentRequests el).length),
        isCreateReq ((buildTextContentRequests el).get ⟨k, hk⟩) = true →
        2 + S.length + 1 ≤ k ∧ k < 2 + S.length + 1 + C.length := by
      intro k hk hf
      have hshape : buildTextContentRequests el =
          (a0 :: a1 :: (S ++ T)) ++ (C ++ (D ++ P)) := by
        rw [hL]
        simp [List.append_assoc]
      rw [get_congr hshape k hk] at hf
      have hb := index_bounds_of_pred isCreateReq (a0 :: a1 :: (S ++ T)) C (D ++ P) k _
        (by
          intro q hq
          rcases List.mem_cons.mp hq with rfl | hq
          · exact hA0.1
          rcases List.mem_cons.mp hq with rfl | hq
          · exact hA1.1
          rcases List.mem_append.mp hq with hq | hq
          · exact (pS q hq).1
          · exact (hTq q hq).1)
        (by
          intro q hq
          rcases List.mem_append.mp hq with hq | hq
          · exact (pD q hq).2.1
          · exact (pP q hq).2.1)
        hf
      simp [hT] at hb
      omega
    -- paragraph-style requests live in the P segment
    have hPStyleIdx : ∀ k (hk : k < (buildTextContentRequests el).length),
        isPStyleReq ((buildTextContentRequests el).get ⟨k, hk⟩) = true →
        2 + S.length + 1 + C.length + D.length ≤ k := by
      intro k hk hf
      have hshape : buildTextContentRequests el =
          (a0 :: a1 :: (S ++ T ++ C ++ D)) ++ (P ++ []) := by
        rw [hL]
        simp [List.append_assoc]
      rw [get_congr hshape k hk] at hf
      have hb := index_bounds_of_pred isPStyleReq (a0 :: a1 :: (S ++ T ++ C ++ D)) P [] k _
        (by
          intro q hq
          rcases List.mem_cons.mp hq with rfl | hq
          · exact hA0.2.2
          rcases List.mem_cons.mp hq with rfl | hq
          · exact hA1.2.2
          rcases List.mem_append.mp hq with hq | hq
          · rcases List.mem_append.mp hq with hq | hq
            · rcases List.mem_append.mp hq with hq | hq
              · exact (pS q hq).2.2
              · exact (hTq q hq).2.2
            · exact (pC q hq).2.2
          · exact (pD q hq).2.2)
        (by intro q hq; simp at hq)
        hf
      simp [hT] at hb
      omega
    -- bullet-delete requests are the cleanup or live in the D segment
    have hDeleteIdx : ∀ k (hk : k < (buildTextContentRequests el).length),
        isDeleteReq ((buildTextContentRequests el).get ⟨k, hk⟩) = true →
        k = 1 ∨ (2 + S.length + 1 + C.length ≤ k ∧
          k < 2 + S.length + 1 + C.length + D.length) := by
      intro k hk hf
      match k with
      | 0 =>
        rw [get_congr hL 0 hk] at hf
        simp [isDeleteReq, ha0] at hf
      | 1 => exact Or.inl rfl
      | (kk + 2) =>
        right
        have hk2 : kk < (S ++ T ++ C ++ D ++ P).length := by
          rw [hL] at hk
          simp only [List.length_cons] at hk
          omega
        have hget : (buildTextContentRequests el).get ⟨kk + 2, hk⟩ =
            (S ++ T ++ C ++ D ++ P).get ⟨kk, hk2⟩ := by
          rw [get_congr hL (kk + 2) hk]
          rfl
        rw [hget] at hf
        have hshape : S ++ T ++ C ++ D ++ P = (S ++ (T ++ C)) ++ (D ++ P) := by
          simp [List.append_assoc]
        rw [get_congr hshape kk hk2] at hf
        have hb := index_bounds_of_pred isDeleteReq (S ++ (T ++ C)) D P kk _
          (by
            intro q hq
            rcases List.mem_append.mp hq with hq | hq
            · exact (pS q hq).2.1
            rcases List.mem_append.mp hq with hq | hq
            · exact (hTq q hq).2.1
            · exact (pC q hq).2.1)
          (by intro q hq; exact (pP q hq).2.2)
          hf
        simp [hT] at hb
        omega
    constructor
    · intro hf hg hne
      obtain ⟨hci, _⟩ := hCreateIdx i hi hf
      rcases hDeleteIdx j hj hg with rfl | ⟨hdj, _⟩
      · exact absurd rfl hne
      · obtain ⟨_, hci2⟩ := hCreateIdx i hi hf
        omega
    · intro hfd hg
      have hpk := hPStyleIdx j hj hg
      rcases hfd with hf | hf
      · obtain ⟨_, hci2⟩ := hCreateIdx i hi hf
        omega
      · rcases hDeleteIdx i hi hf with rfl | ⟨_, hdi2⟩
        · omega
        · omega
  · -- legacy path: no ranged bullet or paragraph-style requests at all
    have hL : buildTextContentRequests el =
        Request.insertText (cleanText el.text) 0 :: Request.updateTextStyleAll ::
          (if truthyS el.align then [Request.updateParagraphStyleAll] else []) := by
      simp only [buildTextContentRequests]
      rw [if_neg h0, if_neg h1]
    have hAll : ∀ q ∈ buildTextContentRequests el,
        isCreateReq q = false ∧ isDeleteReq q = false ∧ isPStyleReq q = false := by
      intro q hq
      rw [hL] at hq
      rcases List.mem_cons.mp hq with rfl | hq
      · simp [isCreateReq, isDeleteReq, isPStyleReq]
      rcases List.mem_cons.mp hq with rfl | hq
      · simp [isCreateReq, isDeleteReq, isPStyleReq]
      split_ifs at hq
      · rcases List.mem_singleton.mp hq with rfl
        simp [isCreateReq, isDeleteReq, isPStyleReq]
      · simp at hq
    constructor
    · intro hf _ _
      have := (hAll _ (get_mem' _ i hi)).1
      rw [hf] at this
      simp at this
    · intro _ hg
      have := (hAll _ (get_mem' _ j hj)).2.2
      rw [hg] at this
      simp at this

/-- Witness for the ordering theorem at a concrete two-paragraph
element: the bullet create sits at index 5, the per-paragraph delete at
index 6 and the paragraph styles after it. -/
theorem buildText_request_ordering_witness :
    (5 : ℕ) < 6 ∧ (6 : ℕ) < 7 :=
  ⟨(buildText_request_ordering
      ⟨("a\nb").data,
        [⟨("a\n").data, "#000000", none, none, none, none, false, false, false, none,
          some defaultPStyle, some ⟨some "L1", 0, none⟩⟩,
         ⟨("b").data, "#000000", none, none, none, none, false, false, false, none,
          some defaultPStyle, none⟩],
        none⟩
      5 6 (by decide) (by decide)).1 (by decide) (by decide) (by decide),
   (buildText_request_ordering
      ⟨("a\nb").data,
        [⟨("a\n").data, "#000000", none, none, none, none, false, false, false, none,
          some defaultPStyle, some ⟨some "L1", 0, none⟩⟩,
         ⟨("b").data, "#000000", none, none, none, none, false, false, false, none,
          some defaultPStyle, none⟩],
        none⟩
      6 7 (by decide) (by decide)).2 (by decide) (by decide)⟩

/-! ## C3: index alignment of the multi-run encoder -/

/-- Cumulative length of a cons. -/
lemma prefLen_cons_succ (r : RunOut) (rest : List RunOut) (k : ℕ) :
    prefLen (r :: rest) (k + 1) = r.text.length + prefLen rest k := by
  simp [prefLen]

/-- Cumulative length zero. -/
lemma prefLen_zero (runs : List RunOut) : prefLen runs 0 = 0 := by
  simp [prefLen]

/-- Every cumulative prefix length is bounded by the length of the
concatenated text. -/
lemma prefLen_le_total (runs : List RunOut) :
    ∀ k, prefLen runs k ≤ ((runs.map (·.text)).flatten).length := by
  induction runs with
  | nil => intro k; simp [prefLen]
  | cons r rest ih =>
    intro k
    match k with
    | 0 => simp [prefLen_zero]
    | k + 1 =>
      rw [prefLen_cons_succ]
      simp only [List.map_cons, List.flatten_cons, List.length_append]
      exact Nat.add_le_add_left (ih k) _

/-- The direct part of the encode loop emits exactly one text style
request per non-empty run. -/
lemma encodeLoop_style_count (runs : List RunOut) : ∀ (prev : Option RunOut) (cur : ℕ),
    (encodeLoop runs prev cur).1.length =
      (runs.filter (fun r => !r.text.isEmpty)).length := by
  induction runs with
  | nil => intro prev cur; simp [encodeLoop]
  | cons r rest ih =>
    intro prev cur
    by_cases hlen : r.text.length = 0
    · rw [encodeLoop_cons_zero r rest prev cur hlen]
      have hemp : r.text.isEmpty = true := by
        rw [List.isEmpty_iff, ← List.length_eq_zero]
        exact hlen
      rw [List.filter_cons]
      simp only [hemp, Bool.not_true, Bool.false_eq_true, if_false]
      exact ih (some r) cur
    · simp only [encodeLoop]
      rw [if_neg hlen]
      have hemp : r.text.isEmpty = false := by
        rw [Bool.eq_false_iff]
        intro hco
        rw [List.isEmpty_iff, ← List.length_eq_zero] at hco
        exact hlen hco
      rw [List.filter_cons]
      simp only [hemp, Bool.not_false, if_true]
      simp only [List.length_cons]
      rw [ih (some r) (cur + r.text.length)]

/-- Every request emitted by the per-run loop takes its range from the
cumulative prior run lengths of some non-empty run. -/
lemma encodeLoop_ranges (runs : List RunOut) : ∀ (prev : Option RunOut) (cur : ℕ) (q : Request),
    (q ∈ (encodeLoop runs prev cur).1 ∨ q ∈ (encodeLoop runs prev cur).2.1 ∨
     q ∈ (encodeLoop runs prev cur).2.2.1 ∨ q ∈ (encodeLoop runs prev cur).2.2.2) →
    ∃ n, ∃ hn : n < runs.length, (runs.get ⟨n, hn⟩).text ≠ [] ∧
      reqStart q = cur + prefLen runs n ∧ reqEnd q = cur + prefLen runs (n + 1) := by
  induction runs with
  | nil => intro prev cur q hq; simp [encodeLoop] at hq
  | cons r rest ih =>
    intro prev cur q hq
    by_cases hlen : r.text.length = 0
    · rw [encodeLoop_cons_zero r rest prev cur hlen] at hq
      obtain ⟨n, hn, hne, hs, he⟩ := ih (some r) cur q hq
      refine ⟨n + 1, by simpa using Nat.succ_lt_succ hn, ?_, ?_, ?_⟩
      · simpa using hne
      · rw [hs, prefLen_cons_succ, hlen]
        omega
      · rw [he, prefLen_cons_succ, hlen]
        omega
    · simp only [encodeLoop] at hq
      rw [if_neg hlen] at hq
      have hne0 : r.text ≠ [] := by
        intro hco
        rw [hco] at hlen
        simp at hlen
      have hzero : ∀ qq : Request, qq = Request.updateTextStyle cur (cur + r.text.length) ∨
          qq = Request.createParagraphBullets cur (cur + r.text.length) ∨
          qq = Request.deleteParagraphBullets cur (cur + r.text.length) ∨
          qq = Request.updateParagraphStyle cur (cur + r.text.length) →
          ∃ n, ∃ hn : n < (r :: rest).length, ((r :: rest).get ⟨n, hn⟩).text ≠ [] ∧
            reqStart qq = cur + prefLen (r :: rest) n ∧
            reqEnd qq = cur + prefLen (r :: rest) (n + 1) := by
        intro qq hqq
        refine ⟨0, by simp, hne0, ?_, ?_⟩ <;>
          · rcases hqq with rfl | rfl | rfl | rfl <;>
              simp [reqStart, reqEnd, prefLen_zero, prefLen_cons_succ]
      have hrec : ∀ (hq' : q ∈ (encodeLoop rest (some r) (cur + r.text.length)).1 ∨
          q ∈ (encodeLoop rest (some r) (cur + r.text.length)).2.1 ∨
          q ∈ (encodeLoop rest (some r) (cur + r.text.length)).2.2.1 ∨
          q ∈ (encodeLoop rest (some r) (cur + r.text.length)).2.2.2),
          ∃ n, ∃ hn : n < (r :: rest).length, ((r :: rest).get ⟨n, hn⟩).text ≠ [] ∧
            reqStart q = cur + prefLen (r :: rest) n ∧
            reqEnd q = cur + prefLen (r :: rest) (n + 1) := by
        intro hq'
        obtain ⟨n, hn, hne, hs, he⟩ := ih (some r) (cur + r.text.length) q hq'
        refine ⟨n + 1, by simpa using Nat.succ_lt_succ hn, ?_, ?_, ?_⟩
        · simpa using hne
        · rw [hs, prefLen_cons_succ]
          omega
        · rw [he, prefLen_cons_succ]
          omega
      rcases hq with hq | hq | hq | hq
      · rcases List.mem_cons.mp hq with rfl | hq
        · exact hzero _ (Or.inl rfl)
        · exact hrec (Or.inl hq)
      · rcases List.mem_append.mp hq with hq | hq
        · split_ifs at hq with hc
          · rcases List.mem_singleton.mp hq with rfl
            exact hzero _ (Or.inr (Or.inl rfl))
          · simp at hq
        · exact hrec (Or.inr (Or.inl hq))
      · rcases List.mem_append.mp hq with hq | hq
        · split_ifs at hq with hc
          · rcases List.mem_singleton.mp hq with rfl
            exact hzero _ (Or.inr (Or.inr (Or.inl rfl)))
          · simp at hq
        · exact hrec (Or.inr (Or.inr (Or.inl hq)))
      · rcases List.mem_append.mp hq with hq | hq
        · rcases hps : r.paragraphStyle with _ | ps <;> simp only [hps] at hq
          · split_ifs at hq <;> simp at hq
          · split_ifs at hq with h1 h2
            · rcases List.mem_singleton.mp hq with rfl
              exact hzero _ (Or.inr (Or.inr (Or.inr rfl)))
            · simp at hq
            · simp at hq
        · exact hrec (Or.inr (Or.inr (Or.inr hq)))

/-- C3 counterexample: on a two-run element the encoder always emits the
trailing-character style request, whose endIndex is the total
concatenated length plus one, exceeding the total length; so not every
emitted range-based text-style operation is bounded by the total. -/
theorem buildText_trailing_exceeds_total :
    Request.updateTextStyle 2 3 ∈ buildTextContentRequests
      ⟨("ab").data,
        [⟨("a").data, "#000000", none, none, none, none, false, false, false, none,
          none, none⟩,
         ⟨("b").data, "#000000", none, none, none, none, false, false, false, none,
          none, none⟩],
        none⟩ ∧
    ((([⟨("a").data, "#000000", none, none, none, none, false, false, false, none,
          none, none⟩,
        ⟨("b").data, "#000000", none, none, none, none, false, false, false, none,
          none, none⟩] : List RunOut).map (·.text)).flatten).length = 2 ∧
    ¬ (reqEnd (Request.updateTextStyle 2 3) ≤ 2) := by
  refine ⟨by decide, by decide, by decide⟩

/-- C3 amended: in the multi-run path the single inserted string is the
concatenation of all run texts; zero-length runs emit no per-run
operation; every per-run range operation takes its startIndex and
endIndex from cumulative prior run lengths and its endIndex never
exceeds the total concatenated length; and the one deliberate exception
is the trailing-character style request spanning exactly
[total, total + 1]. -/
theorem buildText_index_invariants (el : BElem)
    (h0 : cleanText el.text ≠ []) (h1 : el.textRuns.length > 1) :
    buildTextContentRequests el =
      Request.insertText ((el.textRuns.map (·.text)).flatten) 0 ::
      Request.deleteParagraphBullets 0 ((el.textRuns.map (·.text)).flatten).length ::
      ((encodeLoop el.textRuns none 0).1 ++
        [Request.updateTextStyle ((el.textRuns.map (·.text)).flatten).length
          (((el.textRuns.map (·.text)).flatten).length + 1)] ++
        (encodeLoop el.textRuns none 0).2.1 ++
        (encodeLoop el.textRuns none 0).2.2.1 ++
        (encodeLoop el.textRuns none 0).2.2.2) ∧
    (encodeLoop el.textRuns none 0).1.length =
      (el.textRuns.filter (fun r => !r.text.isEmpty)).length ∧
    (∀ q, (q ∈ (encodeLoop el.textRuns none 0).1 ∨
        q ∈ (encodeLoop el.textRuns none 0).2.1 ∨
        q ∈ (encodeLoop el.textRuns none 0).2.2.1 ∨
        q ∈ (encodeLoop el.textRuns none 0).2.2.2) →
      ∃ n, ∃ hn : n < el.textRuns.length, (el.textRuns.get ⟨n, hn⟩).text ≠ [] ∧
        reqStart q = prefLen el.textRuns n ∧
        reqEnd q = prefLen el.textRuns (n + 1) ∧
        reqEnd q ≤ ((el.textRuns.map (·.text)).flatten).length) := by
  refine ⟨?_, encodeLoop_style_count el.textRuns none 0, ?_⟩
  · simp only [buildTextContentRequests]
    rw [if_neg h0, if_pos h1, if_pos (by omega : el.textRuns.length > 0)]
  · intro q hq
    obtain ⟨n, hn, hne, hs, he⟩ := encodeLoop_ranges el.textRuns none 0 q hq
    refine ⟨n, hn, hne, by simpa using hs, by simpa using he, ?_⟩
    have := prefLen_le_total el.textRuns (n + 1)
    omega

/-- Witness: the index invariants at a concrete two-run element. -/
theorem buildText_index_invariants_witness :
    (encodeLoop ([⟨("a\n").data, "#000000", none, none, none, none, false, false, false,
        none, none, none⟩,
      ⟨("b").data, "#000000", none, none, none, none, false, false, false, none,
        none, none⟩] : List RunOut) none 0).1.length =
      (([⟨("a\n").data, "#000000", none, none, none, none, false, false, false, none,
          none, none⟩,
        ⟨("b").data, "#000000", none, none, none, none, false, false, false, none,
          none, none⟩] : List RunOut).filter (fun r => !r.text.isEmpty)).length :=
  (buildText_index_invariants
    ⟨("a\nb").data,
      [⟨("a\n").data, "#000000", none, none, none, none, false, false, false, none,
        none, none⟩,
       ⟨("b").data, "#000000", none, none, none, none, false, false, false, none,
        none, none⟩],
      none⟩
    (by decide) (by decide)).2.1

/-! ## C5: round trip of buildTransform and the decomposition -/

/-- The rounded value is within half a unit of its argument. -/
lemma jsRound_close (x : ℝ) : |(jsRound x : ℝ) - x| ≤ 1/2 := by
  have h1 : (jsRound x : ℝ) ≤ x + 1/2 := Int.floor_le _
  have h2 : x + 1/2 < (jsRound x : ℝ) + 1 := Int.lt_floor_add_one _
  rw [abs_le]
  constructor <;> linarith

/-- atan2 recovers angles in the right half plane. -/
lemma atan2_sincos_right (θ : ℝ) (h1 : -(π/2) < θ) (h2 : θ < π/2) :
    atan2 (Real.sin θ) (Real.cos θ) = θ := by
  have hc : 0 < Real.cos θ := Real.cos_pos_of_mem_Ioo ⟨h1, h2⟩
  rw [atan2, if_pos hc, ← Real.tan_eq_sin_div_cos, Real.arctan_tan h1 h2]

/-- atan2 recovers third-quadrant angles shifted one full turn down. -/
lemma atan2_sincos_third (θ : ℝ) (h1 : π < θ) (h2 : θ < π + π/2) :
    atan2 (Real.sin θ) (Real.cos θ) = θ - 2*π := by
  have hpi := Real.pi_pos
  have hc : Real.cos θ < 0 := Real.cos_neg_of_pi_div_two_lt_of_lt (by linarith) h2
  have hs : Real.sin θ < 0 := by
    have hsub : Real.sin (θ - π) = -Real.sin θ := Real.sin_sub_pi θ
    have hpos : 0 < Real.sin (θ - π) :=
      Real.sin_pos_of_pos_of_lt_pi (by linarith) (by linarith)
    linarith [hsub ▸ hpos]
  rw [atan2, if_neg (by linarith), if_pos hc, if_neg (by linarith)]
  rw [← Real.tan_eq_sin_div_cos, ← Real.tan_sub_pi, Real.arctan_tan (by linarith) (by linarith)]
  ring

/-- The resolved matrix components of the built transform (EMU form)
with no flips and non-degenerate width and height. -/
lemma buildTransform_noflip_fields (x y rot w h : ℝ) (hw : w ≠ 0) (hh : h ≠ 0) :
    resolvedScaleX (emuOfPt (buildTransform x y rot w h false false)) =
      Real.cos (rot * π / 180) ∧
    resolvedScaleY (emuOfPt (buildTransform x y rot w h false false)) =
      Real.cos (rot * π / 180) ∧
    resolvedShearX (emuOfPt (buildTransform x y rot w h false false)) =
      -Real.sin (rot * π / 180) ∧
    resolvedShearY (emuOfPt (buildTransform x y rot w h false false)) =
      Real.sin (rot * π / 180) ∧
    resolvedTranslateX (emuOfPt (buildTransform x y rot w h false false)) =
      (x + w / 2 * (1 - Real.cos (rot * π / 180)) + h / 2 * Real.sin (rot * π / 180)) * 12700 ∧
    resolvedTranslateY (emuOfPt (buildTransform x y rot w h false false)) =
      (y + h / 2 * (1 - Real.cos (rot * π / 180)) - w / 2 * Real.sin (rot * π / 180)) * 12700 := by
  refine ⟨?_, ?_, ?_, ?_, ?_, ?_⟩ <;>
    simp [buildTransform, emuOfPt, jsOrR, hw, hh, resolvedScaleX, resolvedScaleY,
      resolvedShearX, resolvedShearY, resolvedTranslateX, resolvedTranslateY]

/-- Geometric recovery: once the decomposition rotation has the same
cosine and sine as the built rotation, position and size are recovered
exactly up to the point rounding of `emuToPt`. -/
lemma geom_recovery (x y w h rot : ℝ) (hw : w ≠ 0) (hh : h ≠ 0)
    (hcos : Real.cos (rotationRad (emuOfPt (buildTransform x y rot w h false false))) =
      Real.cos (rot * π / 180))
    (hsin : Real.sin (rotationRad (emuOfPt (buildTransform x y rot w h false false))) =
      Real.sin (rot * π / 180)) :
    geomX (emuOfPt (buildTransform x y rot w h false false)) (12700 * w) (12700 * h) =
      ((jsRound x : ℤ) : ℝ) ∧
    geomY (emuOfPt (buildTransform x y rot w h false false)) (12700 * w) (12700 * h) =
      ((jsRound y : ℤ) : ℝ) ∧
    geomW (emuOfPt (buildTransform x y rot w h false false)) (12700 * w) =
      ((jsRound w : ℤ) : ℝ) ∧
    geomH (emuOfPt (buildTransform x y rot w h false false)) (12700 * h) =
      ((jsRound h : ℤ) : ℝ) ∧
    0 < detT (emuOfPt (buildTransform x y rot w h false false)) := by
  obtain ⟨hsx, hsy, hshx, hshy, htx, hty⟩ := buildTransform_noflip_fields x y rot w h hw hh
  have hpyth := Real.sin_sq_add_cos_sq (rot * π / 180)
  have hsw : scaleW (emuOfPt (buildTransform x y rot w h false false)) = 1 := by
    rw [scaleW, hsx, hshy]
    have he : Real.cos (rot * π / 180) * Real.cos (rot * π / 180) +
        Real.sin (rot * π / 180) * Real.sin (rot * π / 180) = 1 := by nlinarith
    rw [he, Real.sqrt_one]
  have hsh : scaleH (emuOfPt (buildTransform x y rot w h false false)) = 1 := by
    rw [scaleH, hshx, hsy]
    have he : -Real.sin (rot * π / 180) * -Real.sin (rot * π / 180) +
        Real.cos (rot * π / 180) * Real.cos (rot * π / 180) = 1 := by nlinarith
    rw [he, Real.sqrt_one]
  refine ⟨?_, ?_, ?_, ?_, ?_⟩
  · rw [geomX, topLeftX, actualWidth, actualHeight, hsw, hsh, hcos, hsin, htx, emuToPt,
      jsRound, jsRound]
    congr 2
    field_simp
    ring
  · rw [geomY, topLeftY, actualWidth, actualHeight, hsw, hsh, hcos, hsin, hty, emuToPt,
      jsRound, jsRound]
    congr 2
    field_simp
    ring
  · rw [geomW, actualWidth, hsw, emuToPt, jsRound, jsRound]
    congr 2
    field_simp
  · rw [geomH, actualHeight, hsh, emuToPt, jsRound, jsRound]
    congr 2
    field_simp
  · rw [detT, hsx, hsy, hshx, hshy]
    nlinarith

/-- Evaluate the reported rotation from a non-negative raw degree value. -/
lemma rotationDeg_eval_nonneg (t : Transform) (d : ℝ) (n : ℤ)
    (hraw : rotationDegRaw t = d) (hd : 0 ≤ d)
    (h1 : (n : ℝ) ≤ d * 100 + 1/2) (h2 : d * 100 + 1/2 < n + 1) :
    rotationDeg t = (n : ℝ) / 100 := by
  rw [rotationDeg, rotationDegNorm, hraw, if_neg (not_lt.mpr hd), jsRound_eq h1 h2]

/-- Evaluate the reported rotation from a negative raw degree value. -/
lemma rotationDeg_eval_neg (t : Transform) (d : ℝ) (n : ℤ)
    (hraw : rotationDegRaw t = d) (hd : d < 0)
    (h1 : (n : ℝ) ≤ (d + 360) * 100 + 1/2) (h2 : (d + 360) * 100 + 1/2 < n + 1) :
    rotationDeg t = (n : ℝ) / 100 := by
  rw [rotationDeg, rotationDegNorm, hraw, if_pos hd, jsRound_eq h1 h2]

/-- Assembled round-trip conclusion from the trigonometric facts of one
rotation case. -/
lemma roundtrip_concl (x y w h rot : ℝ) (hw : w ≠ 0) (hh : h ≠ 0)
    (hcos : Real.cos (rotationRad (emuOfPt (buildTransform x y rot w h false false))) =
      Real.cos (rot * π / 180))
    (hsin : Real.sin (rotationRad (emuOfPt (buildTransform x y rot w h false false))) =
      Real.sin (rot * π / 180))
    (hdeg : |rotationDeg (emuOfPt (buildTransform x y rot w h false false)) - rot| ≤ 1/10000) :
    |geomX (emuOfPt (buildTransform x y rot w h false false)) (12700 * w) (12700 * h) - x| ≤ 1/2 ∧
    |geomY (emuOfPt (buildTransform x y rot w h false false)) (12700 * w) (12700 * h) - y| ≤ 1/2 ∧
    |geomW (emuOfPt (buildTransform x y rot w h false false)) (12700 * w) - w| ≤ 1/2 ∧
    |geomH (emuOfPt (buildTransform x y rot w h false false)) (12700 * h) - h| ≤ 1/2 ∧
    |rotationDeg (emuOfPt (buildTransform x y rot w h false false)) - rot| ≤ 1/10000 ∧
    0 < detT (emuOfPt (buildTransform x y rot w h false false)) := by
  obtain ⟨e1, e2, e3, e4, hdet⟩ := geom_recovery x y w h rot hw hh hcos hsin
  refine ⟨?_, ?_, ?_, ?_, hdeg, hdet⟩
  · rw [e1]; exact jsRound_close x
  · rw [e2]; exact jsRound_close y
  · rw [e3]; exact jsRound_close w
  · rw [e4]; exact jsRound_close h

/-- C5 counterexample: with a horizontal flip the decomposition does not
recover the original rotation: a flipped, unrotated element is reported
as rotated 180 degrees. -/
theorem decompose_flip_breaks_rotation :
    rotationDeg (emuOfPt (buildTransform 0 0 0 1 1 true false)) = 180 ∧
    ¬ |rotationDeg (emuOfPt (buildTransform 0 0 0 1 1 true false)) - 0| ≤ 1/10000 := by
  have hpi := Real.pi_pos
  have hsx : resolvedScaleX (emuOfPt (buildTransform 0 0 0 1 1 true false)) = -1 := by
    simp [buildTransform, emuOfPt, jsOrR, resolvedScaleX]
  have hshy : resolvedShearY (emuOfPt (buildTransform 0 0 0 1 1 true false)) = 0 := by
    simp [buildTransform, emuOfPt, jsOrR, resolvedShearY]
  have hrad : rotationRad (emuOfPt (buildTransform 0 0 0 1 1 true false)) = π := by
    rw [rotationRad, hshy, hsx, atan2, if_neg (by norm_num), if_pos (by norm_num : (-1:ℝ) < 0),
      if_pos le_rfl]
    rw [zero_div, Real.arctan_zero, zero_add]
  have hdeg : rotationDeg (emuOfPt (buildTransform 0 0 0 1 1 true false)) = 180 := by
    have hraw : rotationDegRaw (emuOfPt (buildTransform 0 0 0 1 1 true false)) = 180 := by
      rw [rotationDegRaw, hrad]
      field_simp
    have := rotationDeg_eval_nonneg _ 180 18000 hraw (by norm_num)
      (by push_cast; norm_num) (by push_cast; norm_num)
    rw [this]
    norm_num
  refine ⟨hdeg, ?_⟩
  rw [hdeg]
  intro hco
  rw [abs_le] at hco
  linarith [hco.1]

/-- C5 amended: for non-degenerate inputs with no flips, decomposing the
built matrix recovers x, y, w and h to within the half-point rounding of
`emuToPt` and the rotation to within one ten-thousandth of a degree
(269.9999 is reported as 270 by design), across the six rotations of the
claim; with a flip the rotation (hence the frame) is not recovered. -/
theorem decompose_buildTransform_roundtrip (x y w h rot : ℝ) (hw : w ≠ 0) (hh : h ≠ 0)
    (hrot : rot = 0 ∨ rot = 37 ∨ rot = 90 ∨ rot = 180 ∨ rot = 2699999/10000 ∨ rot = 270) :
    |geomX (emuOfPt (buildTransform x y rot w h false false)) (12700 * w) (12700 * h) - x| ≤ 1/2 ∧
    |geomY (emuOfPt (buildTransform x y rot w h false false)) (12700 * w) (12700 * h) - y| ≤ 1/2 ∧
    |geomW (emuOfPt (buildTransform x y rot w h false false)) (12700 * w) - w| ≤ 1/2 ∧
    |geomH (emuOfPt (buildTransform x y rot w h false false)) (12700 * h) - h| ≤ 1/2 ∧
    |rotationDeg (emuOfPt (buildTransform x y rot w h false false)) - rot| ≤ 1/10000 ∧
    0 < detT (emuOfPt (buildTransform x y rot w h false false)) := by
  have hpi := Real.pi_pos
  have hpine : π ≠ 0 := hpi.ne'
  rcases hrot with rfl | rfl | rfl | rfl | rfl | rfl
  · -- rot = 0
    obtain ⟨hsx, _, _, hshy, _, _⟩ := buildTransform_noflip_fields x y 0 w h hw hh
    have hθ : (0:ℝ) * π / 180 = 0 := by ring
    have hrad : rotationRad (emuOfPt (buildTransform x y 0 w h false false)) = 0 := by
      rw [rotationRad, hshy, hsx, hθ]
      exact atan2_sincos_right 0 (by linarith) (by linarith)
    apply roundtrip_concl x y w h 0 hw hh (by rw [hrad, hθ]) (by rw [hrad, hθ])
    have hraw : rotationDegRaw (emuOfPt (buildTransform x y 0 w h false false)) = 0 := by
      rw [rotationDegRaw, hrad, zero_mul]
    have he := rotationDeg_eval_nonneg _ 0 0 hraw le_rfl (by norm_num) (by norm_num)
    rw [he]
    norm_num
  · -- rot = 37
    obtain ⟨hsx, _, _, hshy, _, _⟩ := buildTransform_noflip_fields x y 37 w h hw hh
    have hb1 : -(π/2) < 37 * π / 180 := by nlinarith
    have hb2 : 37 * π / 180 < π/2 := by nlinarith
    have hrad : rotationRad (emuOfPt (buildTransform x y 37 w h false false)) =
        37 * π / 180 := by
      rw [rotationRad, hshy, hsx]
      exact atan2_sincos_right _ hb1 hb2
    apply roundtrip_concl x y w h 37 hw hh (by rw [hrad]) (by rw [hrad])
    have hraw : rotationDegRaw (emuOfPt (buildTransform x y 37 w h false false)) = 37 := by
      rw [rotationDegRaw, hrad]
      field_simp
    have he := rotationDeg_eval_nonneg _ 37 3700 hraw (by norm_num)
      (by push_cast; norm_num) (by push_cast; norm_num)
    rw [he]
    norm_num
  · -- rot = 90
    obtain ⟨hsx, _, _, hshy, _, _⟩ := buildTransform_noflip_fields x y 90 w h hw hh
    have hθ : (90:ℝ) * π / 180 = π/2 := by ring
    have hrad : rotationRad (emuOfPt (buildTransform x y 90 w h false false)) = π/2 := by
      rw [rotationRad, hshy, hsx, hθ, Real.sin_pi_div_two, Real.cos_pi_div_two, atan2,
        if_neg (lt_irrefl 0), if_neg (lt_irrefl 0), if_pos one_pos]
    apply roundtrip_concl x y w h 90 hw hh (by rw [hrad, hθ]) (by rw [hrad, hθ])
    have hraw : rotationDegRaw (emuOfPt (buildTransform x y 90 w h false false)) = 90 := by
      rw [rotationDegRaw, hrad]
      field_simp
      ring
    have he := rotationDeg_eval_nonneg _ 90 9000 hraw (by norm_num)
      (by push_cast; norm_num) (by push_cast; norm_num)
    rw [he]
    norm_num
  · -- rot = 180
    obtain ⟨hsx, _, _, hshy, _, _⟩ := buildTransform_noflip_fields x y 180 w h hw hh
    have hθ : (180:ℝ) * π / 180 = π := by ring
    have hrad : rotationRad (emuOfPt (buildTransform x y 180 w h false false)) = π := by
      rw [rotationRad, hshy, hsx, hθ, Real.sin_pi, Real.cos_pi, atan2,
        if_neg (by norm_num : ¬ (0:ℝ) < -1), if_pos (by norm_num : (-1:ℝ) < 0),
        if_pos le_rfl, zero_div, Real.arctan_zero, zero_add]
    apply roundtrip_concl x y w h 180 hw hh (by rw [hrad, hθ]) (by rw [hrad, hθ])
    have hraw : rotationDegRaw (emuOfPt (buildTransform x y 180 w h false false)) = 180 := by
      rw [rotationDegRaw, hrad]
      field_simp
    have he := rotationDeg_eval_nonneg _ 180 18000 hraw (by norm_num)
      (by push_cast; norm_num) (by push_cast; norm_num)
    rw [he]
    norm_num
  · -- rot = 269.9999
    obtain ⟨hsx, _, _, hshy, _, _⟩ := buildTransform_noflip_fields x y (2699999/10000) w h hw hh
    have hθgt : π < 2699999/10000 * π / 180 := by nlinarith
    have hθlt : 2699999/10000 * π / 180 < π + π/2 := by nlinarith
    have hrad : rotationRad (emuOfPt (buildTransform x y (2699999/10000) w h false false)) =
        2699999/10000 * π / 180 - 2*π := by
      rw [rotationRad, hshy, hsx]
      exact atan2_sincos_third _ hθgt hθlt
    apply roundtrip_concl x y w h (2699999/10000) hw hh
      (by rw [hrad, Real.cos_sub_two_pi]) (by rw [hrad, Real.sin_sub_two_pi])
    have hraw : rotationDegRaw (emuOfPt (buildTransform x y (2699999/10000) w h false false)) =
        -(900001/10000) := by
      rw [rotationDegRaw, hrad]
      field_simp
      ring
    have he := rotationDeg_eval_neg _ (-(900001/10000)) 27000 hraw (by norm_num)
      (by push_cast; norm_num) (by push_cast; norm_num)
    rw [he, abs_le]
    constructor <;> push_cast <;> norm_num
  · -- rot = 270
    obtain ⟨hsx, _, _, hshy, _, _⟩ := buildTransform_noflip_fields x y 270 w h hw hh
    have hθ : (270:ℝ) * π / 180 = π + π/2 := by ring
    have hcosθ : Real.cos (π + π/2) = 0 := by
      rw [Real.cos_add, Real.cos_pi, Real.sin_pi, Real.cos_pi_div_two]
      ring
    have hsinθ : Real.sin (π + π/2) = -1 := by
      rw [Real.sin_add, Real.sin_pi, Real.cos_pi, Real.sin_pi_div_two]
      ring
    have hrad : rotationRad (emuOfPt (buildTransform x y 270 w h false false)) = -(π/2) := by
      rw [rotationRad, hshy, hsx, hθ, hcosθ, hsinθ, atan2, if_neg (lt_irrefl 0),
        if_neg (lt_irrefl 0), if_neg (by norm_num : ¬ (0:ℝ) < -1),
        if_pos (by norm_num : (-1:ℝ) < 0)]
    apply roundtrip_concl x y w h 270 hw hh
      (by rw [hrad, Real.cos_neg, Real.cos_pi_div_two, hθ, hcosθ])
      (by rw [hrad, Real.sin_neg, Real.sin_pi_div_two, hθ, hsinθ])
    have hraw : rotationDegRaw (emuOfPt (buildTransform x y 270 w h false false)) = -90 := by
      rw [rotationDegRaw, hrad]
      field_simp
      ring
    have he := rotationDeg_eval_neg _ (-90) 27000 hraw (by norm_num)
      (by push_cast; norm_num) (by push_cast; norm_num)
    rw [he]
    norm_num

/-- Witness: the no-flip round trip at a concrete input with rotation 37. -/
theorem decompose_buildTransform_roundtrip_witness :
    (1:ℝ) ≠ 0 ∧ ((37:ℝ) = 0 ∨ (37:ℝ) = 37 ∨ (37:ℝ) = 90 ∨ (37:ℝ) = 180 ∨
      (37:ℝ) = 2699999/10000 ∨ (37:ℝ) = 270) ∧
    (|geomX (emuOfPt (buildTransform 2 3 37 1 1 false false)) (12700 * 1) (12700 * 1) - 2| ≤ 1/2 ∧
     |geomY (emuOfPt (buildTransform 2 3 37 1 1 false false)) (12700 * 1) (12700 * 1) - 3| ≤ 1/2 ∧
     |geomW (emuOfPt (buildTransform 2 3 37 1 1 false false)) (12700 * 1) - 1| ≤ 1/2 ∧
     |geomH (emuOfPt (buildTransform 2 3 37 1 1 false false)) (12700 * 1) - 1| ≤ 1/2 ∧
     |rotationDeg (emuOfPt (buildTransform 2 3 37 1 1 false false)) - 37| ≤ 1/10000 ∧
     0 < detT (emuOfPt (buildTransform 2 3 37 1 1 false false))) :=
  ⟨one_ne_zero, Or.inr (Or.inl rfl),
    decompose_buildTransform_roundtrip 2 3 1 1 37 one_ne_zero one_ne_zero
      (Or.inr (Or.inl rfl))⟩

/-! ## C2: round trip of the text codec on well-formed streams -/

/-- Stamping a marker onto a group is a map. -/
lemma applyMarkerToRuns_eq_map (m : MarkerIn) (rs : List RunOut) :
    applyMarkerToRuns m rs = rs.map (stampMarker (some m)) := by
  simp [applyMarkerToRuns, stampMarker]

/-- The text of a freshly built run is its content. -/
lemma mkRunOut_text (slideMap staticMap activeMap : ColorMap) (st : Option RunStyleIn)
    (c : Str) : (mkRunOut slideMap staticMap activeMap st c).text = c := rfl

/-- Spec-side decoding of a run of consecutive text-run elements. -/
lemma specDecodeRuns_runs_seg (slideMap staticMap activeMap : ColorMap)
    (rs : List RunIn) : ∀ (rest : List TElem) (pending : Option MarkerIn),
    specDecodeRuns slideMap staticMap activeMap (rs.map TElem.run ++ rest) pending =
      ((rs.filter (fun r => !(r.content.getD []).isEmpty)).map
        (fun r => stampMarker pending
          (mkRunOut slideMap staticMap activeMap r.style (r.content.getD [])))) ++
      specDecodeRuns slideMap staticMap activeMap rest pending := by
  induction rs with
  | nil => intro rest pending; simp
  | cons r rs' ih =>
    intro rest pending
    by_cases hc : r.content.getD [] = []
    · have hemp : (r.content.getD []).isEmpty = true := by
        rw [List.isEmpty_iff]
        exact hc
      simp only [List.map_cons, List.cons_append, specDecodeRuns]
      simp only [List.append_eq]
      rw [if_pos hc, ih, List.filter_cons]
      simp [hemp]
    · have hemp : (r.content.getD []).isEmpty = false := by
        rw [Bool.eq_false_iff]
        intro hco
        rw [List.isEmpty_iff] at hco
        exact hc hco
      simp only [List.map_cons, List.cons_append, specDecodeRuns]
      simp only [List.append_eq]
      rw [if_neg hc, ih, List.filter_cons]
      simp [hemp]

/-- Spec-side decoding of a block-structured stream: each block yields
its non-empty runs stamped with its own marker. -/
lemma specDecodeRuns_blocks (slideMap staticMap activeMap : ColorMap)
    (bs : List TBlock) : ∀ (pending : Option MarkerIn),
    specDecodeRuns slideMap staticMap activeMap (streamOfBlocks bs) pending =
      (bs.map (blockRunsOut slideMap staticMap activeMap)).flatten := by
  induction bs with
  | nil => intro pending; simp [streamOfBlocks, specDecodeRuns]
  | cons b rest ih =>
    intro pending
    have hstream : streamOfBlocks (b :: rest) =
        TElem.marker b.marker :: (b.runs.map TElem.run ++ streamOfBlocks rest) := by
      simp [streamOfBlocks, blockElems]
    rw [hstream]
    simp only [specDecodeRuns]
    rw [specDecodeRuns_runs_seg, ih]
    simp [blockRunsOut, applyMarkerToRuns_eq_map]

/-- The contents of a block-structured stream. -/
lemma runContents_blocks (bs : List TBlock) :
    runContents (streamOfBlocks bs) = streamText bs := by
  induction bs with
  | nil => simp [streamOfBlocks, runContents, streamText]
  | cons b rest ih =>
    have hstream : streamOfBlocks (b :: rest) =
        TElem.marker b.marker :: (b.runs.map TElem.run ++ streamOfBlocks rest) := by
      simp [streamOfBlocks, blockElems]
    rw [hstream]
    have hruns : ∀ (rs : List RunIn) (tail : List TElem),
        runContents (rs.map TElem.run ++ tail) =
          (rs.map (fun r => r.content.getD [])).flatten ++ runContents tail := by
      intro rs
      induction rs with
      | nil => intro tail; simp
      | cons r rs' ih2 => intro tail; simp [runContents, ih2]
    simp only [runContents]
    rw [hruns]
    simp [streamText, blockText, ih]

/-- A string without newline does not end with one. -/
lemma not_endsNl_of_no_nl {s : Str} (h : '\n' ∉ s) : strEndsWithNl s = false := by
  rw [strEndsWithNl]
  cases hg : s.getLast? with
  | none => rfl
  | some c =>
    have hc : c ∈ s := by
      cases s with
      | nil => simp at hg
      | cons a as =>
        have := List.getLast?_eq_getLast (a :: as) (by simp)
        rw [this] at hg
        have hmem := List.getLast_mem (l := a :: as) (by simp)
        rw [Option.some_inj] at hg
        rw [hg] at hmem
        exact hmem
    simp only [decide_eq_false_iff_not]
    intro hco
    rw [hco] at hc
    exact h hc

/-- The canonical alignment token is never empty. -/
lemma mapAlignmentAdvanced_ne_empty (a : Option String) :
    mapAlignmentAdvanced a ≠ "" := by
  unfold mapAlignmentAdvanced
  split <;> decide

/-- The encode loop only inspects the text, paragraph style and bullet
of the runs (and the text of the predecessor). -/
lemma encodeLoop_congr (rs1 : List RunOut) : ∀ (rs2 : List RunOut)
    (prev1 prev2 : Option RunOut) (cur : ℕ),
    rs1.map obsRun = rs2.map obsRun →
    prev1.map (·.text) = prev2.map (·.text) →
    encodeLoop rs1 prev1 cur = encodeLoop rs2 prev2 cur := by
  induction rs1 with
  | nil =>
    intro rs2 prev1 prev2 cur hobs hprev
    have h2 : rs2 = [] := by
      have h3 := hobs.symm
      rw [List.map_nil, List.map_eq_nil_iff] at h3
      exact h3
    subst h2
    rfl
  | cons r1 t1 ih =>
    intro rs2 prev1 prev2 cur hobs hprev
    cases rs2 with
    | nil => simp at hobs
    | cons r2 t2 =>
      simp only [List.map_cons, List.cons.injEq] at hobs
      obtain ⟨hhead, htail⟩ := hobs
      have htext : r1.text = r2.text := congrArg Prod.fst hhead
      have hps : r1.paragraphStyle = r2.paragraphStyle := by
        have := congrArg Prod.snd hhead
        exact congrArg Prod.fst this
      have hbul : r1.bullet = r2.bullet := by
        have := congrArg Prod.snd hhead
        exact congrArg Prod.snd this
      have hpara : (match prev1 with
          | none => true
          | some p => strEndsWithNl p.text) =
          (match prev2 with
          | none => true
          | some p => strEndsWithNl p.text) := by
        cases prev1 with
        | none =>
          cases prev2 with
          | none => rfl
          | some p2 => simp at hprev
        | some p1 =>
          cases prev2 with
          | none => simp at hprev
          | some p2 =>
            have hte : p1.text = p2.text := by simpa using hprev
            simp only [hte]
      by_cases hlen : r1.text.length = 0
      · rw [encodeLoop_cons_zero r1 t1 prev1 cur hlen,
          encodeLoop_cons_zero r2 t2 prev2 cur (by rw [← htext]; exact hlen)]
        exact ih t2 (some r1) (some r2) cur htail (by simp [htext])
      · simp only [encodeLoop]
        rw [if_neg hlen,
          if_neg (show ¬ (r2.text.length = 0) from by rw [← htext]; exact hlen)]
        have hrec := ih t2 (some r1) (some r2) (cur + r1.text.length) htail (by simp [htext])
        rw [hrec, htext, hps, hbul, hpara]
        cases prev2 <;> rfl

/-- Group length of a cons. -/
lemma groupLen_cons (r : RunOut) (g : List RunOut) :
    groupLen (r :: g) = r.text.length + groupLen g := by
  simp [groupLen]

/-- Inside a paragraph (after its first run), no further bullet or
paragraph-style requests are emitted: the collected components are those
of the continuation, with the offset advanced by the group length and
the last run as predecessor. -/
lemma encodeLoop_within (g' : List RunOut) : ∀ (rest : List RunOut) (p : RunOut) (o : ℕ),
    (∀ r ∈ g', r.text ≠ []) →
    (∀ r ∈ g'.dropLast, strEndsWithNl r.text = false) →
    strEndsWithNl p.text = false →
    (encodeLoop (g' ++ rest) (some p) o).2 =
      (encodeLoop rest (some (g'.getLastD p)) (o + groupLen g')).2 := by
  induction g' with
  | nil => intro rest p o _ _ _; simp [groupLen]
  | cons r g'' ih =>
    intro rest p o hne hmid hp
    have hrne : r.text ≠ [] := hne r (by simp)
    have hlen : ¬ r.text.length = 0 := by
      intro hco
      exact hrne (List.length_eq_zero.mp hco)
    simp only [List.cons_append, encodeLoop]
    rw [if_neg hlen]
    simp only [hp, Bool.false_and, Bool.false_eq_true, if_false, List.nil_append]
    cases g'' with
    | nil =>
      simp [groupLen, List.getLastD]
    | cons r2 g''' =>
      have hrmid : strEndsWithNl r.text = false := by
        apply hmid r
        rw [List.dropLast_cons₂]
        simp
      have hsub := ih rest r (o + r.text.length)
        (fun r' hr' => hne r' (by simp [hr']))
        (fun r' hr' => by
          apply hmid r'
          rw [List.dropLast_cons₂]
          simp [hr'])
        hrmid
      simp only [List.append_eq]
      have heta : ((encodeLoop ((r2 :: g''') ++ rest) (some r) (o + r.text.length)).2.1,
          (encodeLoop ((r2 :: g''') ++ rest) (some r) (o + r.text.length)).2.2.1,
          (encodeLoop ((r2 :: g''') ++ rest) (some r) (o + r.text.length)).2.2.2) =
          (encodeLoop ((r2 :: g''') ++ rest) (some r) (o + r.text.length)).2 := rfl
      rw [heta, hsub]
      have hgl : (r :: r2 :: g''').getLastD p = (r2 :: g''').getLastD r := by
        simp [List.getLastD]
      rw [← hgl]
      congr 2
      simp only [groupLen_cons]
      omega

/-- Encoding one whole paragraph group: the first run is a paragraph
start and contributes exactly one bullet request (create when the group
bullet passes the strict check, delete otherwise) and one
paragraph-style request, all at the group start offset. -/
lemma encodeLoop_group (r0 : RunOut) (g' rest : List RunOut) (prev : Option RunOut) (o : ℕ)
    (ht0 : r0.text ≠ []) (hts : ∀ r ∈ g', r.text ≠ [])
    (hmid : ∀ r ∈ (r0 :: g').dropLast, strEndsWithNl r.text = false)
    (pg : PStyleOut) (hpg : r0.paragraphStyle = some pg) (hpf : pFieldsNonempty pg = true)
    (hprev : ∀ p, prev = some p → strEndsWithNl p.text = true) :
    (encodeLoop ((r0 :: g') ++ rest) prev o).2 =
      ((if bulletTruthy r0.bullet then
          [Request.createParagraphBullets o (o + r0.text.length)] else []) ++
        (encodeLoop rest (some (g'.getLastD r0)) (o + groupLen (r0 :: g'))).2.1,
       (if !bulletTruthy r0.bullet then
          [Request.deleteParagraphBullets o (o + r0.text.length)] else []) ++
        (encodeLoop rest (some (g'.getLastD r0)) (o + groupLen (r0 :: g'))).2.2.1,
       Request.updateParagraphStyle o (o + r0.text.length) ::
        (encodeLoop rest (some (g'.getLastD r0)) (o + groupLen (r0 :: g'))).2.2.2) := by
  have hlen : ¬ r0.text.length = 0 := by
    intro hco
    exact ht0 (List.length_eq_zero.mp hco)
  have htail : (encodeLoop (g' ++ rest) (some r0) (o + r0.text.length)).2 =
      (encodeLoop rest (some (g'.getLastD r0)) (o + r0.text.length + groupLen g')).2 := by
    cases g' with
    | nil => simp [groupLen]
    | cons r2 g'' =>
      apply encodeLoop_within
      · exact hts
      · intro r' hr'
        apply hmid r'
        rw [List.dropLast_cons₂]
        simp [hr']
      · apply hmid r0
        rw [List.dropLast_cons₂]
        simp
  have hlen2 : o + r0.text.length + groupLen g' = o + groupLen (r0 :: g') := by
    rw [groupLen_cons]
    omega
  rw [hlen2] at htail
  cases prev with
  | none =>
    simp only [List.cons_append, encodeLoop]
    rw [if_neg hlen, ← htail]
    simp [hpg, hpf]
  | some p =>
    have hpt := hprev p rfl
    simp only [List.cons_append, encodeLoop]
    rw [if_neg hlen, ← htail]
    simp [hpg, hpf, hpt]

/-- The collected bullet and paragraph-style requests of a sequence of
paragraph groups: one bullet request and one paragraph-style request per
group, at the group start offsets, in group order. -/
lemma encodeLoop_groups (G : List (List RunOut)) : ∀ (prev : Option RunOut) (o : ℕ),
    (∀ g ∈ G, g ≠ []) →
    (∀ g ∈ G, ∀ r ∈ g, r.text ≠ []) →
    (∀ g ∈ G, ∀ r ∈ g.dropLast, strEndsWithNl r.text = false) →
    (∀ g ∈ G, ∀ r ∈ g.head?.toList,
      ∃ pg, r.paragraphStyle = some pg ∧ pFieldsNonempty pg = true) →
    (∀ g ∈ G.dropLast, ∀ r ∈ g.getLast?.toList, strEndsWithNl r.text = true) →
    (∀ p, prev = some p → strEndsWithNl p.text = true) →
    ((encodeLoop G.flatten prev o).2.1.map reqStart =
      ((groupOffsets o G).zip G).filterMap
        (fun q => if bulletTruthy (groupBullet q.2) then some q.1 else none)) ∧
    ((encodeLoop G.flatten prev o).2.2.1.map reqStart =
      ((groupOffsets o G).zip G).filterMap
        (fun q => if bulletTruthy (groupBullet q.2) then none else some q.1)) ∧
    ((encodeLoop G.flatten prev o).2.2.2.map reqStart = groupOffsets o G) := by
  induction G with
  | nil =>
    intro prev o _ _ _ _ _ _
    simp [encodeLoop, groupOffsets]
  | cons g G' ih =>
    intro prev o h1 h2 h3 h4 h5 h6
    cases g with
    | nil => exact absurd rfl (h1 [] (by simp))
    | cons r0 g' =>
      obtain ⟨pg, hpg, hpf⟩ := h4 (r0 :: g') (by simp) r0 (by simp)
      have hflat : ((r0 :: g') :: G').flatten = (r0 :: g') ++ G'.flatten := by
        simp
      have hg := encodeLoop_group r0 g' G'.flatten prev o
        (h2 (r0 :: g') (by simp) r0 (by simp))
        (fun r hr => h2 (r0 :: g') (by simp) r (by simp [hr]))
        (fun r hr => h3 (r0 :: g') (by simp) r hr)
        pg hpg hpf h6
      rw [hflat, hg]
      cases G' with
      | nil =>
        simp [encodeLoop, groupOffsets, groupBullet]
        by_cases hb : bulletTruthy r0.bullet = true <;> simp [hb, reqStart]
      | cons g2 G'' =>
        have hlastmem : (r0 :: g') ∈ ((r0 :: g') :: g2 :: G'').dropLast := by
          rw [List.dropLast_cons₂]
          simp
        have hxne : (r0 :: g') ≠ ([] : List RunOut) := by simp
        obtain ⟨x, hx⟩ : ∃ x, (r0 :: g').getLast? = some x := by
          cases hgl : (r0 :: g').getLast? with
          | none => rw [List.getLast?_eq_none_iff] at hgl; exact absurd hgl hxne
          | some v => exact ⟨v, rfl⟩
        have hxend : strEndsWithNl x.text = true :=
          h5 (r0 :: g') hlastmem x (by rw [hx]; simp)
        have hgd : g'.getLastD r0 = x := by
          cases g' with
          | nil =>
            simp only [List.getLast?_singleton, Option.some_inj] at hx
            simp [List.getLastD, hx]
          | cons a as =>
            rw [List.getLast?_cons_cons] at hx
            rw [List.getLastD_eq_getLast?, hx]
            rfl
        have hihp : ∀ p, some (g'.getLastD r0) = some p → strEndsWithNl p.text = true := by
          intro p hp
          rw [Option.some_inj] at hp
          rw [← hp, hgd]
          exact hxend
        obtain ⟨ih1, ih2, ih3⟩ := ih (some (g'.getLastD r0)) (o + groupLen (r0 :: g'))
          (fun gg hgg => h1 gg (by simp [hgg]))
          (fun gg hgg r hr => h2 gg (by simp [hgg]) r hr)
          (fun gg hgg r hr => h3 gg (by simp [hgg]) r hr)
          (fun gg hgg r hr => h4 gg (by simp [hgg]) r hr)
          (fun gg hgg r hr => by
            apply h5 gg _ r hr
            rw [List.dropLast_cons₂]
            simp [hgg])
          hihp
        refine ⟨?_, ?_, ?_⟩
        · simp only [List.map_append, ih1, groupOffsets, List.zip_cons_cons,
            List.filterMap_cons, groupBullet]
          by_cases hb : bulletTruthy r0.bullet = true <;> simp [hb, reqStart]
        · simp only [List.map_append, ih2, groupOffsets, List.zip_cons_cons,
            List.filterMap_cons, groupBullet]
          by_cases hb : bulletTruthy r0.bullet = true <;> simp [hb, reqStart]
        · simp only [List.map_cons, ih3, groupOffsets, reqStart]

/-- The texts of a decoded block group concatenate to the block text. -/
lemma blockRunsOut_texts (slideMap staticMap activeMap : ColorMap) (b : TBlock) :
    (((blockRunsOut slideMap staticMap activeMap b).map (·.text)).flatten) = blockText b := by
  rw [blockRunsOut, applyMarkerToRuns_eq_map, blockText]
  induction b.runs with
  | nil => simp
  | cons r rs ih =>
    rw [List.filter_cons]
    by_cases hemp : (r.content.getD []).isEmpty = true
    · have hc : r.content.getD [] = [] := List.isEmpty_iff.mp hemp
      simp only [hemp, Bool.not_true, Bool.false_eq_true, if_false, List.map_cons,
        List.flatten_cons, hc, List.nil_append]
      exact ih
    · simp only [hemp, Bool.not_false, if_true, List.map_cons, List.flatten_cons]
      rw [stampMarker_text, mkRunOut_text, ih]

/-- Group length of a decoded block equals the block text length. -/
lemma groupLen_blockRunsOut (slideMap staticMap activeMap : ColorMap) (b : TBlock) :
    groupLen (blockRunsOut slideMap staticMap activeMap b) = (blockText b).length := by
  rw [groupLen, blockRunsOut_texts]

/-- On a block with non-empty run contents the decoded group is a plain
map over its runs. -/
lemma blockRunsOut_eq_map (slideMap staticMap activeMap : ColorMap) (b : TBlock)
    (h : ∀ r ∈ b.runs, r.content.getD [] ≠ []) :
    blockRunsOut slideMap staticMap activeMap b =
      b.runs.map (fun r => stampMarker (some b.marker)
        (mkRunOut slideMap staticMap activeMap r.style (r.content.getD []))) := by
  rw [blockRunsOut, applyMarkerToRuns_eq_map,
    List.filter_eq_self.mpr (fun r hr => by simp [List.isEmpty_iff, h r hr]),
    List.map_map]
  rfl


/-! ## C2: encode of decode round trip -/

/-- Appending on the left does not change the trailing character. -/
lemma strEndsWithNl_append (A s : Str) (h : s ≠ []) :
    strEndsWithNl (A ++ s) = strEndsWithNl s := by
  rw [strEndsWithNl, strEndsWithNl, List.getLast?_append_of_ne_nil _ h]

/-- A string free of cleaned characters passes through `cleanText`. -/
lemma cleanText_eq_self {s : Str} (h : ∀ c ∈ s, isCleanedChar c = false) :
    cleanText s = s :=
  List.filter_eq_self.mpr (fun c hc => by simp [h c hc])

/-- Characters of a plain run are never cleaned. -/
lemma plainRun_chars {s : Str} (h : plainRun s) : ∀ c ∈ s, isCleanedChar c = false :=
  fun c hc => Bool.eq_false_iff.mpr (h.1 c hc)

/-- A newline-terminated string is its own front with a final newline. -/
lemma eq_concat_newline_of_endsNl {s : Str} (hne : s ≠ []) (h : strEndsWithNl s = true) :
    s = s.dropLast ++ ['\n'] := by
  have hl : s.getLast hne = '\n' := by
    rw [strEndsWithNl, List.getLast?_eq_getLast s hne] at h
    simpa using h
  conv_lhs => rw [← List.dropLast_append_getLast hne]
  rw [hl]

/-- Characters of a newline-terminated run with a plain front are never
cleaned. -/
lemma lastRun_chars {s : Str} (hne : s ≠ []) (hend : strEndsWithNl s = true)
    (hpl : plainRun s.dropLast) : ∀ c ∈ s, isCleanedChar c = false := by
  intro c hc
  rw [eq_concat_newline_of_endsNl hne hend] at hc
  rcases List.mem_append.mp hc with h1 | h1
  · exact plainRun_chars hpl c h1
  · rcases List.mem_singleton.mp h1 with rfl
    decide

/-- Every character of the plain text of a well-formed stream survives
the cleanup. -/
lemma streamText_not_cleaned (bs : List TBlock) (h : ∀ b ∈ bs, WFBlock b) :
    ∀ c ∈ streamText bs, isCleanedChar c = false := by
  intro c hc
  rw [streamText] at hc
  rcases List.mem_flatten.mp hc with ⟨t, ht, hct⟩
  rcases List.mem_map.mp ht with ⟨b, hb, rfl⟩
  rw [blockText] at hct
  rcases List.mem_flatten.mp hct with ⟨s, hs, hcs⟩
  rcases List.mem_map.mp hs with ⟨r, hr, rfl⟩
  obtain ⟨hne, hcont, hdl, hlast⟩ := h b hb
  have hr2 : r ∈ b.runs.dropLast ++ [b.runs.getLast hne] := by
    rw [List.dropLast_append_getLast hne]
    exact hr
  rcases List.mem_append.mp hr2 with h1 | h1
  · exact plainRun_chars (hdl r h1) c hcs
  · rcases List.mem_singleton.mp h1 with rfl
    have hmem : b.runs.getLast hne ∈ b.runs.getLast?.toList := by
      rw [List.getLast?_eq_getLast b.runs hne]
      simp
    obtain ⟨hend, hpl⟩ := hlast _ hmem
    exact lastRun_chars (hcont _ (List.getLast_mem hne)) hend hpl c hcs

/-- The texts of the decoded blocks flatten to the stream text. -/
lemma blocks_flatten_texts (slideMap staticMap activeMap : ColorMap) (bs : List TBlock) :
    ((((bs.map (blockRunsOut slideMap staticMap activeMap)).flatten).map (·.text)).flatten) =
      streamText bs := by
  induction bs with
  | nil => simp [streamText]
  | cons b rest ih =>
    simp only [List.map_cons, List.flatten_cons, List.map_append, List.flatten_append, ih]
    rw [blockRunsOut_texts]
    simp [streamText]

/-- Every run decoded from a block with non-empty contents has non-empty
text. -/
lemma blockRunsOut_text_ne_nil (slideMap staticMap activeMap : ColorMap) (b : TBlock)
    (hc : ∀ r ∈ b.runs, r.content.getD [] ≠ []) :
    ∀ r ∈ blockRunsOut slideMap staticMap activeMap b, r.text ≠ [] := by
  rw [blockRunsOut_eq_map _ _ _ _ hc]
  intro r hr
  rcases List.mem_map.mp hr with ⟨r0, hr0, rfl⟩
  rw [stampMarker_text, mkRunOut_text]
  exact hc r0 hr0

/-- A block with runs decodes to a non-empty group. -/
lemma blockRunsOut_ne_nil (slideMap staticMap activeMap : ColorMap) (b : TBlock)
    (hne : b.runs ≠ []) (hc : ∀ r ∈ b.runs, r.content.getD [] ≠ []) :
    blockRunsOut slideMap staticMap activeMap b ≠ [] := by
  rw [blockRunsOut_eq_map _ _ _ _ hc]
  simpa [List.map_eq_nil_iff] using hne

/-- The paragraph data built from any marker pushes at least its
alignment field. -/
lemma pFields_buildParagraphData (m : MarkerIn) :
    pFieldsNonempty (buildParagraphData m).1 = true := by
  have h := mapAlignmentAdvanced_ne_empty (m.style.bind (·.alignment))
  simp [pFieldsNonempty, buildParagraphData, h]

/-- The bullet of a decoded block group is the block marker bullet
data. -/
lemma groupBullet_blockRunsOut (slideMap staticMap activeMap : ColorMap) (b : TBlock)
    (hne : b.runs ≠ []) (hc : ∀ r ∈ b.runs, r.content.getD [] ≠ []) :
    groupBullet (blockRunsOut slideMap staticMap activeMap b) =
      (buildParagraphData b.marker).2 := by
  rw [blockRunsOut_eq_map _ _ _ _ hc]
  cases hr : b.runs with
  | nil => exact absurd hr hne
  | cons r rs => simp [groupBullet, stampMarker]

/-- The per-group facts needed by the encode characterization, for a
decoded well-formed block. -/
lemma blockRunsOut_group_facts (slideMap staticMap activeMap : ColorMap) (b : TBlock)
    (hb : WFBlock b) :
    (∀ r ∈ blockRunsOut slideMap staticMap activeMap b, r.text ≠ []) ∧
    (∀ r ∈ (blockRunsOut slideMap staticMap activeMap b).dropLast,
      strEndsWithNl r.text = false) ∧
    (∀ r ∈ (blockRunsOut slideMap staticMap activeMap b).head?.toList,
      ∃ pg, r.paragraphStyle = some pg ∧ pFieldsNonempty pg = true) ∧
    (∀ r ∈ (blockRunsOut slideMap staticMap activeMap b).getLast?.toList,
      strEndsWithNl r.text = true) := by
  obtain ⟨hne, hcont, hdl, hlast⟩ := hb
  refine ⟨blockRunsOut_text_ne_nil _ _ _ b hcont, ?_, ?_, ?_⟩
  · rw [blockRunsOut_eq_map _ _ _ _ hcont, ← List.map_dropLast]
    intro r hr
    rcases List.mem_map.mp hr with ⟨r0, hr0, rfl⟩
    rw [stampMarker_text, mkRunOut_text]
    exact not_endsNl_of_no_nl (hdl r0 hr0).2
  · rw [blockRunsOut_eq_map _ _ _ _ hcont]
    cases hr : b.runs with
    | nil => exact absurd hr hne
    | cons r0 rs =>
      intro r hrr
      simp only [List.map_cons, List.head?_cons, Option.toList_some,
        List.mem_singleton] at hrr
      subst hrr
      exact ⟨(buildParagraphData b.marker).1, by simp [stampMarker],
        pFields_buildParagraphData b.marker⟩
  · rw [blockRunsOut_eq_map _ _ _ _ hcont]
    intro r hrr
    rw [List.getLast?_map, List.getLast?_eq_getLast b.runs hne] at hrr
    simp at hrr
    subst hrr
    rw [stampMarker_text, mkRunOut_text]
    exact (hlast _ (by rw [List.getLast?_eq_getLast b.runs hne]; simp)).1


/-- Offsets and bullet decisions transfer from decoded run groups to the
source blocks: the last group may be shorter (its trailing newline is
stripped) but its offset and bullet agree, and no later offset depends on
its length. -/
lemma groups_blocks_offsets (slideMap staticMap activeMap : ColorMap) (bl : TBlock)
    (gl : List RunOut) (hbul : bulletTruthy (groupBullet gl) = blockHasBullet bl) :
    ∀ (bs0 : List TBlock) (o : ℕ),
      (∀ b ∈ bs0, b.runs ≠ [] ∧ ∀ r ∈ b.runs, r.content.getD [] ≠ []) →
      groupOffsets o (bs0.map (blockRunsOut slideMap staticMap activeMap) ++ [gl]) =
        blockOffsets o (bs0 ++ [bl]) ∧
      ((groupOffsets o (bs0.map (blockRunsOut slideMap staticMap activeMap) ++ [gl])).zip
          (bs0.map (blockRunsOut slideMap staticMap activeMap) ++ [gl])).filterMap
          (fun q => if bulletTruthy (groupBullet q.2) then some q.1 else none) =
        ((blockOffsets o (bs0 ++ [bl])).zip (bs0 ++ [bl])).filterMap
          (fun q => if blockHasBullet q.2 then some q.1 else none) ∧
      ((groupOffsets o (bs0.map (blockRunsOut slideMap staticMap activeMap) ++ [gl])).zip
          (bs0.map (blockRunsOut slideMap staticMap activeMap) ++ [gl])).filterMap
          (fun q => if bulletTruthy (groupBullet q.2) then none else some q.1) =
        ((blockOffsets o (bs0 ++ [bl])).zip (bs0 ++ [bl])).filterMap
          (fun q => if blockHasBullet q.2 then none else some q.1) := by
  intro bs0
  induction bs0 with
  | nil =>
    intro o _
    refine ⟨by simp [groupOffsets, blockOffsets], ?_, ?_⟩ <;>
      cases hb : blockHasBullet bl <;>
        rw [hb] at hbul <;>
          simp [groupOffsets, blockOffsets, hbul, hb]
  | cons b rest ih =>
    intro o hfacts
    obtain ⟨hbne, hbcont⟩ := hfacts b (by simp)
    have hlen : groupLen (blockRunsOut slideMap staticMap activeMap b) =
        (blockText b).length := groupLen_blockRunsOut _ _ _ b
    have hcond : bulletTruthy (groupBullet (blockRunsOut slideMap staticMap activeMap b)) =
        blockHasBullet b := by
      rw [groupBullet_blockRunsOut _ _ _ b hbne hbcont, blockHasBullet]
    obtain ⟨ih1, ih2, ih3⟩ :=
      ih (o + (blockText b).length) (fun b2 hb2 => hfacts b2 (by simp [hb2]))
    refine ⟨?_, ?_, ?_⟩
    · simp only [List.map_cons, List.cons_append, groupOffsets, blockOffsets, hlen,
        List.append_eq, ih1]
    · cases hbb : blockHasBullet b with
      | false =>
        rw [hbb] at hcond
        simp only [List.map_cons, List.cons_append, groupOffsets, blockOffsets, hlen,
          List.append_eq, List.zip_cons_cons, List.filterMap_cons]
        simp only [hcond, hbb, Bool.false_eq_true, if_false]
        exact ih2
      | true =>
        rw [hbb] at hcond
        simp only [List.map_cons, List.cons_append, groupOffsets, blockOffsets, hlen,
          List.append_eq, List.zip_cons_cons, List.filterMap_cons]
        simp only [hcond, hbb, eq_self_iff_true, if_true]
        rw [ih2]
    · cases hbb : blockHasBullet b with
      | false =>
        rw [hbb] at hcond
        simp only [List.map_cons, List.cons_append, groupOffsets, blockOffsets, hlen,
          List.append_eq, List.zip_cons_cons, List.filterMap_cons]
        simp only [hcond, hbb, Bool.false_eq_true, if_false]
        rw [ih3]
      | true =>
        rw [hbb] at hcond
        simp only [List.map_cons, List.cons_append, groupOffsets, blockOffsets, hlen,
          List.append_eq, List.zip_cons_cons, List.filterMap_cons]
        simp only [hcond, hbb, eq_self_iff_true, if_true]
        exact ih3

/-- Trailing cleanup of a decoded block stream: only the last run of the
last block loses its final newline. -/
lemma cleanupRuns_blocks (slideMap staticMap activeMap : ColorMap)
    (bs0 : List TBlock) (bl : TBlock) (rs0 : List RunIn) (rl : RunIn)
    (hruns : bl.runs = rs0 ++ [rl])
    (hblcont : ∀ r ∈ bl.runs, r.content.getD [] ≠ [])
    (hrlend : strEndsWithNl (rl.content.getD []) = true)
    (hrlddrop : (rl.content.getD []).dropLast ≠ []) :
    cleanupRuns (((bs0 ++ [bl]).map (blockRunsOut slideMap staticMap activeMap)).flatten) =
      (bs0.map (blockRunsOut slideMap staticMap activeMap)).flatten ++
        (rs0.map (fun r => stampMarker (some bl.marker)
            (mkRunOut slideMap staticMap activeMap r.style (r.content.getD []))) ++
          [{ stampMarker (some bl.marker)
              (mkRunOut slideMap staticMap activeMap rl.style (rl.content.getD [])) with
             text := (rl.content.getD []).dropLast }]) := by
  have hsplit : ((bs0 ++ [bl]).map (blockRunsOut slideMap staticMap activeMap)).flatten =
      ((bs0.map (blockRunsOut slideMap staticMap activeMap)).flatten ++
        rs0.map (fun r => stampMarker (some bl.marker)
          (mkRunOut slideMap staticMap activeMap r.style (r.content.getD [])))) ++
      [stampMarker (some bl.marker)
        (mkRunOut slideMap staticMap activeMap rl.style (rl.content.getD []))] := by
    rw [List.map_append, List.flatten_append]
    simp only [List.map_cons, List.map_nil, List.flatten_cons, List.flatten_nil,
      List.append_nil]
    rw [blockRunsOut_eq_map _ _ _ _ hblcont, hruns]
    simp
  rw [hsplit, cleanupRuns_concat, stampMarker_text, mkRunOut_text, if_pos hrlend,
    if_neg (fun hx => hrlddrop hx.1), List.append_assoc]

/-- The decoded run list, spelled through the spec-side collection. -/
lemma extractText_runs_eq (slideMap staticMap activeMap : ColorMap) (es : List TElem) :
    (extractTextAdvanced slideMap staticMap activeMap es).runs =
      inheritMissingRunStyles
        (cleanupRuns (specDecodeRuns slideMap staticMap activeMap es none)) := by
  unfold extractTextAdvanced
  simp only
  rw [extractTextLoop_runs slideMap staticMap activeMap es none [] [] []]
  simp

/-- The decoded plain text, spelled through the stream contents. -/
lemma extractText_pt_eq (slideMap staticMap activeMap : ColorMap) (es : List TElem) :
    (extractTextAdvanced slideMap staticMap activeMap es).plainText =
      cleanupPlainText (runContents es) := by
  unfold extractTextAdvanced
  simp only
  rw [extractTextLoop_pt slideMap staticMap activeMap es none [] [] [],
    List.nil_append]

/-- The element text handed to the encoder is the decoded plain text. -/
lemma mkTextElement_text (staticMap activeMap : ColorMap) (td : TextData) :
    (mkTextElement staticMap activeMap td).text = td.plainText := rfl

/-- With more than one decoded run the element carries all of them. -/
lemma mkTextElement_textRuns_length (staticMap activeMap : ColorMap) (td : TextData)
    (h : td.runs.length > 1) :
    (mkTextElement staticMap activeMap td).textRuns.length = td.runs.length := by
  simp only [mkTextElement]
  rw [if_pos h, List.length_map]

/-- The element handed to the encoder observes exactly the decoded
runs. -/
lemma mkTextElement_obs (staticMap activeMap : ColorMap) (td : TextData)
    (h : td.runs.length > 1) :
    (mkTextElement staticMap activeMap td).textRuns.map obsRun = td.runs.map obsRun := by
  simp only [mkTextElement]
  rw [if_pos h, List.map_map]
  rfl


/-- C2 (amended): on a well-formed block stream (each paragraph one
marker followed by non-empty runs free of cleaned characters, newlines
appearing only as paragraph terminators, the final paragraph not a bare
newline) whose decode yields at least two runs, encoding the decoded
element inserts exactly the original stream text with its single final
newline stripped, at index 0, cleans bullets over that whole range, and
re-emits the paragraph and bullet boundaries at unchanged character
offsets: bullet creates start exactly at the bulleted block offsets,
bullet deletes at the bullet-free block offsets, and paragraph styles at
every block offset. -/
theorem extractText_encode_roundtrip (slideMap staticMap activeMap : ColorMap)
    (bs : List TBlock) (hwf : WFStream bs)
    (hlen : 2 ≤ (extractTextAdvanced slideMap staticMap activeMap
      (streamOfBlocks bs)).runs.length) :
    ∃ rest : List Request,
      buildTextContentRequests (mkTextElement staticMap activeMap
          (extractTextAdvanced slideMap staticMap activeMap (streamOfBlocks bs))) =
        Request.insertText ((streamText bs).dropLast) 0 ::
          Request.deleteParagraphBullets 0 ((streamText bs).dropLast).length :: rest ∧
      (rest.filter isCreateReq).map reqStart =
        ((blockOffsets 0 bs).zip bs).filterMap
          (fun q => if blockHasBullet q.2 then some q.1 else none) ∧
      (rest.filter isDeleteReq).map reqStart =
        ((blockOffsets 0 bs).zip bs).filterMap
          (fun q => if blockHasBullet q.2 then none else some q.1) ∧
      (rest.filter isPStyleReq).map reqStart = blockOffsets 0 bs := by
  obtain ⟨hne, hwfb, hlastb⟩ := hwf
  rcases bs.eq_nil_or_concat with hbs | ⟨bs0, bl, hbs⟩
  · exact absurd hbs hne
  rw [List.concat_eq_append] at hbs
  subst hbs
  obtain ⟨hblne, hblcont, hbldrop, hbllast⟩ := hwfb bl (by simp)
  rcases bl.runs.eq_nil_or_concat with h0 | ⟨rs0, rl, hruns⟩
  · exact absurd h0 hblne
  rw [List.concat_eq_append] at hruns
  have hrlmem : rl ∈ bl.runs := by rw [hruns]; simp
  have hrlc : rl.content.getD [] ≠ [] := hblcont rl hrlmem
  have hrllast : bl.runs.getLast? = some rl := by rw [hruns, List.getLast?_concat]
  obtain ⟨hrlend, hrlplain⟩ := hbllast rl (by rw [hrllast]; simp)
  have hrlne2 : rl.content.getD [] ≠ ['\n'] :=
    hlastb bl (by rw [List.getLast?_concat]; simp) rl (by rw [hrllast]; simp)
  have hrlddrop : (rl.content.getD []).dropLast ≠ [] := by
    intro h0
    apply hrlne2
    have hdec := eq_concat_newline_of_endsNl hrlc hrlend
    rw [h0] at hdec
    simpa using hdec
  set A := (bs0.map (blockRunsOut slideMap staticMap activeMap)).flatten with hA
  set gl : List RunOut :=
    rs0.map (fun r => stampMarker (some bl.marker)
        (mkRunOut slideMap staticMap activeMap r.style (r.content.getD []))) ++
      [{ stampMarker (some bl.marker)
          (mkRunOut slideMap staticMap activeMap rl.style (rl.content.getD [])) with
         text := (rl.content.getD []).dropLast }] with hgl
  have hCR : cleanupRuns
      (((bs0 ++ [bl]).map (blockRunsOut slideMap staticMap activeMap)).flatten) =
      A ++ gl := by
    rw [hA, hgl]
    exact cleanupRuns_blocks slideMap staticMap activeMap bs0 bl rs0 rl hruns hblcont
      hrlend hrlddrop
  set td := extractTextAdvanced slideMap staticMap activeMap (streamOfBlocks (bs0 ++ [bl]))
    with htd
  have htdruns : td.runs = inheritMissingRunStyles (A ++ gl) := by
    rw [htd, extractText_runs_eq, specDecodeRuns_blocks, hCR]
  have h2 : 1 < td.runs.length := hlen
  have hsplitText : streamText (bs0 ++ [bl]) =
      (bs0.map blockText).flatten ++
        ((rs0.map (fun r => r.content.getD [])).flatten ++ rl.content.getD []) := by
    simp [streamText, blockText, hruns]
  have hEnds : strEndsWithNl (streamText (bs0 ++ [bl])) = true := by
    rw [hsplitText, strEndsWithNl_append _ _ (fun hx => hrlc (List.append_eq_nil.mp hx).2),
      strEndsWithNl_append _ _ hrlc, hrlend]
  have hT : td.plainText = (streamText (bs0 ++ [bl])).dropLast := by
    rw [htd, extractText_pt_eq, runContents_blocks, cleanupPlainText, if_pos hEnds]
  have hTne : (streamText (bs0 ++ [bl])).dropLast ≠ [] := by
    rw [hsplitText,
      List.dropLast_append_of_ne_nil _ (fun hx => hrlc (List.append_eq_nil.mp hx).2),
      List.dropLast_append_of_ne_nil _ hrlc]
    intro hx
    exact hrlddrop (List.append_eq_nil.mp (List.append_eq_nil.mp hx).2).2
  have hclean2 : ∀ c ∈ (streamText (bs0 ++ [bl])).dropLast, isCleanedChar c = false :=
    fun c hc => streamText_not_cleaned (bs0 ++ [bl]) hwfb c (List.dropLast_subset _ hc)
  have hguard : cleanText td.plainText ≠ [] := by
    rw [hT, cleanText_eq_self hclean2]
    exact hTne
  set el := mkTextElement staticMap activeMap td with hel
  have helText : el.text = td.plainText := by rw [hel]; rfl
  have helRunsLen : el.textRuns.length > 1 := by
    rw [hel, mkTextElement_textRuns_length staticMap activeMap td h2]
    exact h2
  have hobs : el.textRuns.map obsRun = (A ++ gl).map obsRun := by
    rw [hel, mkTextElement_obs staticMap activeMap td h2, htdruns,
      inheritMissingRunStyles_obs]
  have henc : encodeLoop el.textRuns none 0 = encodeLoop (A ++ gl) none 0 :=
    encodeLoop_congr el.textRuns (A ++ gl) none none 0 hobs rfl
  have hRtexts : ∀ r ∈ ((bs0 ++ [bl]).map (blockRunsOut slideMap staticMap activeMap)).flatten,
      r.text ≠ [] := by
    intro r hr
    rcases List.mem_flatten.mp hr with ⟨g, hg, hrg⟩
    rcases List.mem_map.mp hg with ⟨b, hb, rfl⟩
    exact blockRunsOut_text_ne_nil _ _ _ b (hwfb b hb).2.1 r hrg
  have htexts : (el.textRuns.map (·.text)).flatten = (streamText (bs0 ++ [bl])).dropLast := by
    rw [map_text_of_map_obs hobs, ← hCR, cleanupRuns_flatten _ hRtexts,
      blocks_flatten_texts, cleanupPlainText, if_pos hEnds]
  have hL : buildTextContentRequests el =
      Request.insertText ((el.textRuns.map (·.text)).flatten) 0 ::
      Request.deleteParagraphBullets 0 ((el.textRuns.map (·.text)).flatten).length ::
      ((encodeLoop el.textRuns none 0).1 ++
        [Request.updateTextStyle ((el.textRuns.map (·.text)).flatten).length
          (((el.textRuns.map (·.text)).flatten).length + 1)] ++
        (encodeLoop el.textRuns none 0).2.1 ++
        (encodeLoop el.textRuns none 0).2.2.1 ++
        (encodeLoop el.textRuns none 0).2.2.2) := by
    simp only [buildTextContentRequests]
    rw [helText, if_neg hguard, if_pos helRunsLen,
      if_pos (by omega : el.textRuns.length > 0)]
  set G : List (List RunOut) := bs0.map (blockRunsOut slideMap staticMap activeMap) ++ [gl]
    with hG
  have hGflat : A ++ gl = G.flatten := by
    rw [hG, hA]
    simp
  have hGblocks : ∀ g ∈ bs0.map (blockRunsOut slideMap staticMap activeMap),
      ∃ b ∈ bs0, g = blockRunsOut slideMap staticMap activeMap b := by
    intro g hg
    rcases List.mem_map.mp hg with ⟨b, hb, rfl⟩
    exact ⟨b, hb, rfl⟩
  have hGne : ∀ g ∈ G, g ≠ [] := by
    intro g hg
    rw [hG] at hg
    rcases List.mem_append.mp hg with hg | hg
    · rcases hGblocks g hg with ⟨b, hb, rfl⟩
      exact blockRunsOut_ne_nil _ _ _ b (hwfb b (by simp [hb])).1 (hwfb b (by simp [hb])).2.1
    · rcases List.mem_singleton.mp hg with rfl
      rw [hgl]
      simp
  have hGtexts : ∀ g ∈ G, ∀ r ∈ g, r.text ≠ [] := by
    intro g hg
    rw [hG] at hg
    rcases List.mem_append.mp hg with hg | hg
    · rcases hGblocks g hg with ⟨b, hb, rfl⟩
      exact blockRunsOut_text_ne_nil _ _ _ b (hwfb b (by simp [hb])).2.1
    · rcases List.mem_singleton.mp hg with rfl
      rw [hgl]
      intro r hr
      rcases List.mem_append.mp hr with hr | hr
      · rcases List.mem_map.mp hr with ⟨r0, hr0, rfl⟩
        rw [stampMarker_text, mkRunOut_text]
        exact hblcont r0 (by rw [hruns]; exact List.mem_append_left _ hr0)
      · rcases List.mem_singleton.mp hr with rfl
        simpa using hrlddrop
  have hGdrop : ∀ g ∈ G, ∀ r ∈ g.dropLast, strEndsWithNl r.text = false := by
    intro g hg
    rw [hG] at hg
    rcases List.mem_append.mp hg with hg | hg
    · rcases hGblocks g hg with ⟨b, hb, rfl⟩
      exact (blockRunsOut_group_facts _ _ _ b (hwfb b (by simp [hb]))).2.1
    · rcases List.mem_singleton.mp hg with rfl
      rw [hgl, List.dropLast_concat]
      intro r hr
      rcases List.mem_map.mp hr with ⟨r0, hr0, rfl⟩
      rw [stampMarker_text, mkRunOut_text]
      have hr02 : r0 ∈ bl.runs.dropLast := by
        rw [hruns, List.dropLast_concat]
        exact hr0
      exact not_endsNl_of_no_nl (hbldrop r0 hr02).2
  have hGhead : ∀ g ∈ G, ∀ r ∈ g.head?.toList,
      ∃ pg, r.paragraphStyle = some pg ∧ pFieldsNonempty pg = true := by
    intro g hg
    rw [hG] at hg
    rcases List.mem_append.mp hg with hg | hg
    · rcases hGblocks g hg with ⟨b, hb, rfl⟩
      exact (blockRunsOut_group_facts _ _ _ b (hwfb b (by simp [hb]))).2.2.1
    · rcases List.mem_singleton.mp hg with rfl
      rw [hgl]
      cases rs0 with
      | nil =>
        intro r hr
        simp only [List.map_nil, List.nil_append, List.head?_cons, Option.toList_some,
          List.mem_singleton] at hr
        subst hr
        exact ⟨(buildParagraphData bl.marker).1, by simp [stampMarker],
          pFields_buildParagraphData bl.marker⟩
      | cons r0 rs =>
        intro r hr
        simp only [List.map_cons, List.cons_append, List.head?_cons, Option.toList_some,
          List.mem_singleton] at hr
        subst hr
        exact ⟨(buildParagraphData bl.marker).1, by simp [stampMarker],
          pFields_buildParagraphData bl.marker⟩
  have hGlast : ∀ g ∈ G.dropLast, ∀ r ∈ g.getLast?.toList, strEndsWithNl r.text = true := by
    rw [hG, List.dropLast_concat]
    intro g hg
    rcases hGblocks g hg with ⟨b, hb, rfl⟩
    exact (blockRunsOut_group_facts _ _ _ b (hwfb b (by simp [hb]))).2.2.2
  obtain ⟨hc1, hc2, hc3⟩ := encodeLoop_groups G none 0 hGne hGtexts hGdrop hGhead hGlast
    (fun p hp => Option.noConfusion hp)
  have hglbullet : groupBullet gl = (buildParagraphData bl.marker).2 := by
    rw [hgl]
    cases rs0 with
    | nil => simp [groupBullet, stampMarker]
    | cons r0 rs => simp [groupBullet, stampMarker]
  have hbulgl : bulletTruthy (groupBullet gl) = blockHasBullet bl := by
    rw [hglbullet, blockHasBullet]
  have hconv := groups_blocks_offsets slideMap staticMap activeMap bl gl hbulgl bs0 0
    (fun b hb => ⟨(hwfb b (by simp [hb])).1, (hwfb b (by simp [hb])).2.1⟩)
  rw [← hG] at hconv
  obtain ⟨pS, pC, pD, pP⟩ := encodeLoop_parts G.flatten none 0
  have hnil : ∀ (p : Request → Bool) (L : List Request), (∀ q ∈ L, p q = false) →
      L.filter p = [] :=
    fun p L h => List.filter_eq_nil_iff.mpr (fun q hq => by simp [h q hq])
  have hself : ∀ (p : Request → Bool) (L : List Request), (∀ q ∈ L, p q = true) →
      L.filter p = L :=
    fun p L h => List.filter_eq_self.mpr (fun q hq => by simp [h q hq])
  have htr_cr : ∀ (a b : ℕ), ([Request.updateTextStyle a b]).filter isCreateReq = [] := by
    intro a b
    simp [isCreateReq]
  have htr_de : ∀ (a b : ℕ), ([Request.updateTextStyle a b]).filter isDeleteReq = [] := by
    intro a b
    simp [isDeleteReq]
  have htr_ps : ∀ (a b : ℕ), ([Request.updateTextStyle a b]).filter isPStyleReq = [] := by
    intro a b
    simp [isPStyleReq]
  rw [hL, htexts, henc, hGflat]
  refine ⟨_, rfl, ?_, ?_, ?_⟩
  · simp only [List.filter_append, htr_cr,
      hnil _ _ (fun q hq => (pS q hq).1),
      hself _ _ (fun q hq => (pC q hq).1),
      hnil _ _ (fun q hq => (pD q hq).2.1),
      hnil _ _ (fun q hq => (pP q hq).2.1),
      List.nil_append, List.append_nil]
    rw [hc1]
    exact hconv.2.1
  · simp only [List.filter_append, htr_de,
      hnil _ _ (fun q hq => (pS q hq).2.1),
      hnil _ _ (fun q hq => (pC q hq).2.1),
      hself _ _ (fun q hq => (pD q hq).1),
      hnil _ _ (fun q hq => (pP q hq).2.2),
      List.nil_append, List.append_nil]
    rw [hc2]
    exact hconv.2.2
  · simp only [List.filter_append, htr_ps,
      hnil _ _ (fun q hq => (pS q hq).2.2),
      hnil _ _ (fun q hq => (pC q hq).2.2),
      hnil _ _ (fun q hq => (pD q hq).2.2),
      hself _ _ (fun q hq => (pP q hq).1),
      List.nil_append, List.append_nil]
    rw [hc3]
    exact hconv.1

/-- Witness: the amended round-trip theorem evaluated on the concrete
two-paragraph stream (bullet-free header, bulleted item). -/
theorem extractText_encode_roundtrip_witness :
    WFStream twoParaBlocks ∧
    2 ≤ (extractTextAdvanced noColors noColors noColors
        (streamOfBlocks twoParaBlocks)).runs.length ∧
    (∃ rest : List Request,
      buildTextContentRequests (mkTextElement noColors noColors
          (extractTextAdvanced noColors noColors noColors (streamOfBlocks twoParaBlocks))) =
        Request.insertText ((streamText twoParaBlocks).dropLast) 0 ::
          Request.deleteParagraphBullets 0
            ((streamText twoParaBlocks).dropLast).length :: rest ∧
      (rest.filter isCreateReq).map reqStart =
        ((blockOffsets 0 twoParaBlocks).zip twoParaBlocks).filterMap
          (fun q => if blockHasBullet q.2 then some q.1 else none) ∧
      (rest.filter isDeleteReq).map reqStart =
        ((blockOffsets 0 twoParaBlocks).zip twoParaBlocks).filterMap
          (fun q => if blockHasBullet q.2 then none else some q.1) ∧
      (rest.filter isPStyleReq).map reqStart = blockOffsets 0 twoParaBlocks) :=
  ⟨by unfold WFStream WFBlock plainRun; decide, by decide,
    extractText_encode_roundtrip noColors noColors noColors twoParaBlocks
      (by unfold WFStream WFBlock plainRun; decide) (by decide)⟩

/-- C2 counterexample: a stream whose single paragraph contains a tab
decodes and re-encodes to an inserted string with the tab removed by the
encoder cleanup, so the original plain text is not reproduced even after
applying the trailing-newline rule. -/
theorem encode_decode_drops_tab :
    cleanupPlainText (streamText tabBlocks) = "a\tb".data ∧
    (buildTextContentRequests (mkTextElement noColors noColors
        (extractTextAdvanced noColors noColors noColors (streamOfBlocks tabBlocks)))).head? =
      some (Request.insertText ("ab".data) 0) ∧
    ("ab".data : Str) ≠ "a\tb".data := by
  refine ⟨by decide, by decide, by decide⟩

end JsonPrez
